import Mathlib

/-!
# Isolation on a 4×4 board: legality, move execution, winner check and minimax

A shallow embedding of `isolation.h`.

* `int` values are `Int`; `char` values are `Char`.
* `char board[4][4]` is a function `Int → Int → Char`.  The cells of the board are the
  indices with row and column in `0..3`.  An index outside that range is undefined
  behaviour in C++; here the function simply has some value there, so a statement proved
  for every `State` does not depend on what such a read would return.
* A `State&` parameter that is written becomes a returned `State`; the `Pos&` of `minimax`
  becomes an extra component of its result.
* The `while` loops of `is_legal` are recursive functions whose termination Lean checks.
* `minimax` recurses on `depth`; it is only ever started with `MINIMAX_DEPTH`, so `depth`
  is a `Nat`.
* The two characters `init_board` reads from standard input are parameters.
-/

namespace Isolation

/-! ## Data model -/

structure Pos where
  row : Int
  col : Int
deriving DecidableEq, Repr

structure State where
  board : Int → Int → Char
  ai : Char
  human : Char
  turn : Char
  x_pos : Pos
  o_pos : Pos

/-- Max depth for the minimax algorithm. -/
def MINIMAX_DEPTH : Nat := 8

/-- The loop indices of `for (int r = 0; r < 4; r++)`. -/
def idx4 : List Int := [0, 1, 2, 3]

/-- The assignment `board[r][c] = v`. -/
def set_cell (board : Int → Int → Char) (r c : Int) (v : Char) : Int → Int → Char :=
  fun r1 c1 => if r1 = r ∧ c1 = c then v else board r1 c1

/-! ## `is_legal` -/

/-- One pass of `if (r > t) r--; else if (r < t) r++;`. -/
def step_toward (r t : Int) : Int :=
  if r > t then r - 1 else if r < t then r + 1 else r

/-- The loop of the diagonal branch of `is_legal`; `false` stands for the early
`return false`, `true` for leaving the loop. -/
def is_legal_diagonal (board : Int → Int → Char) (move : Pos) (r c : Int) : Bool :=
  if r ≠ move.row ∧ c ≠ move.col then
    let r1 := step_toward r move.row
    let c1 := step_toward c move.col
    if board r1 c1 ≠ ' ' then false
    else is_legal_diagonal board move r1 c1
  else true
termination_by (r - move.row).natAbs
decreasing_by
  simp only [step_toward]
  split_ifs <;> omega

/-- The loop of the vertical branch of `is_legal`. -/
def is_legal_vertical (board : Int → Int → Char) (move : Pos) (r c : Int) : Bool :=
  if r ≠ move.row then
    let r1 := step_toward r move.row
    if board r1 c ≠ ' ' then false
    else is_legal_vertical board move r1 c
  else true
termination_by (r - move.row).natAbs
decreasing_by
  simp only [step_toward]
  split_ifs <;> omega

/-- The loop of the horizontal branch of `is_legal`. -/
def is_legal_horizontal (board : Int → Int → Char) (move : Pos) (r c : Int) : Bool :=
  if c ≠ move.col then
    let c1 := step_toward c move.col
    if board r c1 ≠ ' ' then false
    else is_legal_horizontal board move r c1
  else true
termination_by (c - move.col).natAbs
decreasing_by
  simp only [step_toward]
  split_ifs <;> omega

/-- Checks whether a given move is legal for a specified player to make. -/
def is_legal (state : State) (player : Char) (move : Pos) : Bool :=
  let out_of_bounds := move.row < 0 ∨ move.row > 3 ∨ move.col < 0 ∨ move.col > 3
  let player_pos := if player = 'x' then state.x_pos else state.o_pos
  let r := player_pos.row
  let c := player_pos.col
  let same_space := r = move.row ∧ c = move.col
  if out_of_bounds ∨ same_space then false
  else if r ≠ move.row ∧ c ≠ move.col then
    if (r - move.row).natAbs ≠ (c - move.col).natAbs then false
    else is_legal_diagonal state.board move r c
  else if r ≠ move.row then is_legal_vertical state.board move r c
  else if c ≠ move.col then is_legal_horizontal state.board move r c
  else true

/-! ## `make_move`, `moves`, `winner`, `evaluate` -/

/-- Executes a move for the specified player; the result is the returned flag and the
state after the call. -/
def make_move (state : State) (player : Char) (move : Pos) : Bool × State :=
  if ¬ is_legal state player move = true then (false, state)
  else if player = 'x' then
    let player_pos := state.x_pos
    let b1 := set_cell state.board move.row move.col 'x'
    let b2 := set_cell b1 player_pos.row player_pos.col '.'
    (true, { state with board := b2, x_pos := move })
  else
    let player_pos := state.o_pos
    let b1 := set_cell state.board move.row move.col 'o'
    let b2 := set_cell b1 player_pos.row player_pos.col '.'
    (true, { state with board := b2, o_pos := move })

/-- Lists all possible moves for `player` in `state`: the two nested `for` loops with
`push_back`. -/
def moves (state : State) (player : Char) : List Pos :=
  idx4.foldl (fun list r =>
    idx4.foldl (fun list c =>
      if is_legal state player ⟨r, c⟩ = true then list ++ [⟨r, c⟩] else list) list) []

/-- Winner of the game, `'n'` if the game is not over. -/
def winner (state : State) : Char :=
  let x_moves := (moves state 'x').length
  let o_moves := (moves state 'o').length
  if x_moves = 0 ∧ state.turn = 'x' then 'o'
  else if o_moves = 0 ∧ state.turn = 'o' then 'x'
  else 'n'

/-- Heuristic: number of AI moves minus number of human moves. -/
def evaluate (state : State) : Int :=
  let ai_moves : Int := (moves state state.ai).length
  let human_moves : Int := (moves state state.human).length
  ai_moves - human_moves

/-- The statement `temp.turn = (temp.turn == 'x') ? 'o' : 'x'`. -/
def flip_turn (state : State) : State :=
  { state with turn := if state.turn = 'x' then 'o' else 'x' }

/-! ## `minimax` and `start_minimax` -/

/-- The body of the maximizing `for` loop: `acc` is `(maxEval, move)`, `rec` is the
recursive call at `depth - 1`, `depth` is the depth of the running call. -/
def max_step (state : State) (depth : Nat) (rec : State → Pos → Int × Pos)
    (acc : Int × Pos) (m : Pos) : Int × Pos :=
  let temp := (make_move state state.ai m).2
  let temp := flip_turn temp
  let res := rec temp acc.2
  if res.1 > acc.1 then (res.1, if depth = MINIMAX_DEPTH then m else res.2)
  else (acc.1, res.2)

/-- The body of the minimizing `for` loop: `acc` is `(minEval, move)`. -/
def min_step (state : State) (rec : State → Pos → Int × Pos)
    (acc : Int × Pos) (m : Pos) : Int × Pos :=
  let temp := (make_move state state.human m).2
  let temp := flip_turn temp
  let res := rec temp acc.2
  if res.1 < acc.1 then (res.1, res.2) else (acc.1, res.2)

/-- The minimax search; the result is the returned score and the value of the `move`
reference after the call. -/
def minimax (state : State) : Nat → Bool → Pos → Int × Pos
  | 0, _, move => (evaluate state, move)
  | depth + 1, maximizing, move =>
    if winner state ≠ 'n' then (evaluate state, move)
    else if maximizing = true then
      (moves state state.ai).foldl
        (max_step state (depth + 1) (fun t mv => minimax t depth false mv)) (-1000, move)
    else
      (moves state state.human).foldl
        (min_step state (fun t mv => minimax t depth true mv)) (1000, move)

/-- Starts the search; `move` is the value the local `Pos move` holds before the call. -/
def start_minimax (state : State) (move : Pos) : Pos :=
  (minimax state MINIMAX_DEPTH true move).2

/-! ## `init_board` -/

/-- Initialises board and players; `human_choice` and `first` are the two characters read
from standard input. -/
def init_board (state : State) (human_choice first : Char) : State :=
  let b0 := idx4.foldl (fun b r => idx4.foldl (fun b c => set_cell b r c ' ') b) state.board
  let b1 := set_cell b0 0 0 'x'
  let b2 := set_cell b1 3 3 'o'
  { board := b2
    ai := if human_choice = 'x' then 'o' else 'x'
    human := human_choice
    turn := first
    x_pos := ⟨0, 0⟩
    o_pos := ⟨3, 3⟩ }

/-! ## `is_legal` and `make_move` with the board cells they touch

The same code once more, returning in addition the indices `board[r][c]` it reads (for
`is_legal`) and writes (for `make_move`), in the order of the accesses. -/

/-- The diagonal loop of `is_legal`, with the cells it reads. -/
def is_legal_diagonal_reads (board : Int → Int → Char) (move : Pos) (r c : Int) :
    Bool × List Pos :=
  if r ≠ move.row ∧ c ≠ move.col then
    let r1 := step_toward r move.row
    let c1 := step_toward c move.col
    if board r1 c1 ≠ ' ' then (false, [⟨r1, c1⟩])
    else
      let res := is_legal_diagonal_reads board move r1 c1
      (res.1, ⟨r1, c1⟩ :: res.2)
  else (true, [])
termination_by (r - move.row).natAbs
decreasing_by
  simp only [step_toward]
  split_ifs <;> omega

/-- The vertical loop of `is_legal`, with the cells it reads. -/
def is_legal_vertical_reads (board : Int → Int → Char) (move : Pos) (r c : Int) :
    Bool × List Pos :=
  if r ≠ move.row then
    let r1 := step_toward r move.row
    if board r1 c ≠ ' ' then (false, [⟨r1, c⟩])
    else
      let res := is_legal_vertical_reads board move r1 c
      (res.1, ⟨r1, c⟩ :: res.2)
  else (true, [])
termination_by (r - move.row).natAbs
decreasing_by
  simp only [step_toward]
  split_ifs <;> omega

/-- The horizontal loop of `is_legal`, with the cells it reads. -/
def is_legal_horizontal_reads (board : Int → Int → Char) (move : Pos) (r c : Int) :
    Bool × List Pos :=
  if c ≠ move.col then
    let c1 := step_toward c move.col
    if board r c1 ≠ ' ' then (false, [⟨r, c1⟩])
    else
      let res := is_legal_horizontal_reads board move r c1
      (res.1, ⟨r, c1⟩ :: res.2)
  else (true, [])
termination_by (c - move.col).natAbs
decreasing_by
  simp only [step_toward]
  split_ifs <;> omega

/-- `is_legal` with the board cells it reads. -/
def is_legal_reads (state : State) (player : Char) (move : Pos) : Bool × List Pos :=
  let out_of_bounds := move.row < 0 ∨ move.row > 3 ∨ move.col < 0 ∨ move.col > 3
  let player_pos := if player = 'x' then state.x_pos else state.o_pos
  let r := player_pos.row
  let c := player_pos.col
  let same_space := r = move.row ∧ c = move.col
  if out_of_bounds ∨ same_space then (false, [])
  else if r ≠ move.row ∧ c ≠ move.col then
    if (r - move.row).natAbs ≠ (c - move.col).natAbs then (false, [])
    else is_legal_diagonal_reads state.board move r c
  else if r ≠ move.row then is_legal_vertical_reads state.board move r c
  else if c ≠ move.col then is_legal_horizontal_reads state.board move r c
  else (true, [])

/-- `make_move` with the board cells it writes (its reads are those of `is_legal`). -/
def make_move_writes (state : State) (player : Char) (move : Pos) :
    (Bool × State) × List Pos :=
  if ¬ is_legal state player move = true then ((false, state), [])
  else if player = 'x' then
    let player_pos := state.x_pos
    let b1 := set_cell state.board move.row move.col 'x'
    let b2 := set_cell b1 player_pos.row player_pos.col '.'
    ((true, { state with board := b2, x_pos := move }), [move, player_pos])
  else
    let player_pos := state.o_pos
    let b1 := set_cell state.board move.row move.col 'o'
    let b2 := set_cell b1 player_pos.row player_pos.col '.'
    ((true, { state with board := b2, o_pos := move }), [move, player_pos])

/-! ## Definitions used to state the properties -/

/-- The recorded position of `player`: `x_pos` for `'x'`, `o_pos` otherwise. -/
def position_of (state : State) (player : Char) : Pos :=
  if player = 'x' then state.x_pos else state.o_pos

/-- Row and column are both in `0..3`. -/
def in_board (p : Pos) : Prop :=
  0 ≤ p.row ∧ p.row ≤ 3 ∧ 0 ≤ p.col ∧ p.col ≤ 3

instance (p : Pos) : Decidable (in_board p) := by
  unfold in_board; infer_instance

/-- The `n` cells that follow `(r, c)` in direction `(dr, dc)` are all open. -/
def line_open (board : Int → Int → Char) (dr dc : Int) : Nat → Int → Int → Bool
  | 0, _, _ => true
  | n + 1, r, c =>
    if board (r + dr) (c + dc) ≠ ' ' then false
    else line_open board dr dc n (r + dr) (c + dc)

/-- Number of steps from `p` to `t` along a line: the larger of the row distance and the
column distance. -/
def dist (p t : Pos) : Nat :=
  max (t.row - p.row).natAbs (t.col - p.col).natAbs

/-- Cell `t` is in the same row, the same column or on a diagonal of `p`. -/
def aligned (p t : Pos) : Prop :=
  p.row = t.row ∨ p.col = t.col ∨ (t.row - p.row).natAbs = (t.col - p.col).natAbs

instance (p t : Pos) : Decidable (aligned p t) := by
  unfold aligned; infer_instance

/-- The 16 board cells in row-major order. -/
def cells : List Pos :=
  [⟨0, 0⟩, ⟨0, 1⟩, ⟨0, 2⟩, ⟨0, 3⟩, ⟨1, 0⟩, ⟨1, 1⟩, ⟨1, 2⟩, ⟨1, 3⟩,
   ⟨2, 0⟩, ⟨2, 1⟩, ⟨2, 2⟩, ⟨2, 3⟩, ⟨3, 0⟩, ⟨3, 1⟩, ⟨3, 2⟩, ⟨3, 3⟩]

/-- Strict row-major order on positions. -/
def row_major_lt (p q : Pos) : Prop :=
  p.row < q.row ∨ (p.row = q.row ∧ p.col < q.col)

instance (p q : Pos) : Decidable (row_major_lt p q) := by
  unfold row_major_lt; infer_instance

/-- Some memory content for a `State` that has not been initialised yet. -/
def blank_state : State :=
  { board := fun _ _ => Char.ofNat 0
    ai := Char.ofNat 0
    human := Char.ofNat 0
    turn := Char.ofNat 0
    x_pos := ⟨0, 0⟩
    o_pos := ⟨0, 0⟩ }

/-- The start state with the human playing `'o'` and `'x'` (the AI) moving first. -/
def start_state : State := init_board blank_state 'o' 'x'

/-- Closed form of `is_legal`, computed without the loops: the target is on the board, is
not the player's cell, is aligned with it, and the line up to the target is open. -/
def legal_line (s : State) (player : Char) (t : Pos) : Bool :=
  decide (in_board t) && decide (t ≠ position_of s player) &&
    decide (aligned (position_of s player) t) &&
    line_open s.board (Int.sign (t.row - (position_of s player).row))
      (Int.sign (t.col - (position_of s player).col)) (dist (position_of s player) t)
      (position_of s player).row (position_of s player).col

/-- The symbol of the other player. -/
def other_player (player : Char) : Char :=
  if player = 'x' then 'o' else 'x'

/-- Target `t` is one step away from `p` (a neighbouring cell, diagonals included). -/
def one_step (p t : Pos) : Prop :=
  dist p t = 1

instance (p t : Pos) : Decidable (one_step p t) := by
  unfold one_step; infer_instance

/-- The states reached from `s` by successful `make_move` calls (of any player, to any
target) and turn flips, in any order. -/
inductive Reach (s : State) : State → Prop
  | start : Reach s s
  | move (s1 : State) (player : Char) (t : Pos) :
      Reach s s1 → (make_move s1 player t).1 = true → Reach s (make_move s1 player t).2
  | flip (s1 : State) : Reach s s1 → Reach s (flip_turn s1)

/-- The state invariant: (a) both recorded positions are on the board, (b) the cell at
`x_pos` holds `'x'` and the cell at `o_pos` holds `'o'`, (c) exactly one of the 16 cells
holds `'x'`, exactly one holds `'o'`, and every cell holds one of `'x'`, `'o'`, `' '`,
`'.'`, (d) the two positions differ. -/
def state_inv (s : State) : Prop :=
  (in_board s.x_pos ∧ in_board s.o_pos) ∧
  (s.board s.x_pos.row s.x_pos.col = 'x' ∧ s.board s.o_pos.row s.o_pos.col = 'o') ∧
  (cells.countP (fun p => decide (s.board p.row p.col = 'x')) = 1 ∧
   cells.countP (fun p => decide (s.board p.row p.col = 'o')) = 1 ∧
   ∀ p ∈ cells, s.board p.row p.col = 'x' ∨ s.board p.row p.col = 'o' ∨
     s.board p.row p.col = ' ' ∨ s.board p.row p.col = '.') ∧
  s.x_pos ≠ s.o_pos

instance (s : State) : Decidable (state_inv s) := by
  unfold state_inv; infer_instance

/-- The state after `make_move(state, player, m)` with the turn flipped, as built inside
the loops of `minimax`. -/
def child (s : State) (player : Char) (m : Pos) : State :=
  flip_turn (make_move s player m).2

/-- The fields `ai` and `human` hold the two distinct symbols `'x'` and `'o'`. -/
def roles_ok (s : State) : Prop :=
  (s.ai = 'x' ∧ s.human = 'o') ∨ (s.ai = 'o' ∧ s.human = 'x')

instance (s : State) : Decidable (roles_ok s) := by
  unfold roles_ok; infer_instance

/-- A position in which nobody can move: x at (0,0), o at (3,3), every other cell blocked;
the AI plays `'x'` and is to move. -/
def dead_state : State :=
  { board := fun r c => if r = 0 ∧ c = 0 then 'x' else if r = 3 ∧ c = 3 then 'o' else '.'
    ai := 'x'
    human := 'o'
    turn := 'x'
    x_pos := ⟨0, 0⟩
    o_pos := ⟨3, 3⟩ }

/-- State `s` with the symbols of `ai` and `human` swapped. -/
def swap_roles (s : State) : State :=
  { s with ai := s.human, human := s.ai }

/-- A position with a blocked line: x at (0,0), o at (0,2), the cells (3,2) and (3,3) that
o has left are blocked, every other cell is open. -/
def block_state : State :=
  { board := fun r c =>
      if r = 0 ∧ c = 0 then 'x' else if r = 0 ∧ c = 2 then 'o'
      else if r = 3 ∧ (c = 2 ∨ c = 3) then '.' else ' '
    ai := 'x'
    human := 'o'
    turn := 'x'
    x_pos := ⟨0, 0⟩
    o_pos := ⟨0, 2⟩ }

/-- A step `(dr, dc)` to a neighbouring cell along a row, a column or a diagonal. -/
def is_direction (dr dc : Int) : Prop :=
  (dr = -1 ∨ dr = 0 ∨ dr = 1) ∧ (dc = -1 ∨ dc = 0 ∨ dc = 1) ∧ ¬ (dr = 0 ∧ dc = 0)

instance (dr dc : Int) : Decidable (is_direction dr dc) := by
  unfold is_direction; infer_instance

/-- The blocked position with a turn symbol that is neither `'x'` nor `'o'`. -/
def odd_turn_state : State :=
  { dead_state with turn := 'z' }

/-- Number of open cells among the 16 cells of the board. -/
def open_count (s : State) : Nat :=
  cells.countP (fun p => decide (s.board p.row p.col = ' '))

/-- `ReachIn s n s1`: state `s1` is reached from `s` by `n` successful `make_move` calls
(of any player, to any target), with turn flips anywhere in between. -/
inductive ReachIn (s : State) : Nat → State → Prop
  | start : ReachIn s 0 s
  | move (s1 : State) (n : Nat) (player : Char) (t : Pos) :
      ReachIn s n s1 → (make_move s1 player t).1 = true →
      ReachIn s (n + 1) (make_move s1 player t).2
  | flip (s1 : State) (n : Nat) : ReachIn s n s1 → ReachIn s n (flip_turn s1)

/-! ## The loops of `is_legal` -/

theorem line_open_iff (board : Int → Int → Char) (dr dc : Int) (n : Nat) (r c : Int) :
    line_open board dr dc n r c = true ↔
      ∀ k : Int, 1 ≤ k → k ≤ n → board (r + k * dr) (c + k * dc) = ' ' := by
  induction n generalizing r c with
  | zero =>
    simp only [line_open, true_iff]
    intro k h1 h2
    simp at h2
    omega
  | succ n ih =>
    rw [line_open]
    by_cases h : board (r + dr) (c + dc) = ' '
    · simp only [h, ne_eq, not_true_eq_false, if_false, ih]
      constructor
      · intro hk k h1 h2
        rcases eq_or_lt_of_le h1 with h1 | h1
        · subst h1; simpa using h
        · have := hk (k - 1) (by omega) (by push_cast at h2; omega)
          have e1 : r + dr + (k - 1) * dr = r + k * dr := by ring
          have e2 : c + dc + (k - 1) * dc = c + k * dc := by ring
          rwa [e1, e2] at this
      · intro hk k h1 h2
        have := hk (k + 1) (by omega) (by push_cast; omega)
        have e1 : r + (k + 1) * dr = r + dr + k * dr := by ring
        have e2 : c + (k + 1) * dc = c + dc + k * dc := by ring
        rwa [e1, e2] at this
    · simp only [h, ne_eq, not_false_eq_true, if_true, Bool.false_eq_true, false_iff]
      intro hk
      exact h (by simpa using hk 1 le_rfl (by push_cast; omega))

theorem step_toward_eq (r t d : Int) (n : Nat) (hd : d = 1 ∨ d = -1)
    (ht : t = r + (n + 1 : Nat) * d) : step_toward r t = r + d ∧ r ≠ t := by
  unfold step_toward
  push_cast at ht
  rcases hd with hd | hd <;> subst hd <;> constructor <;> first | (split_ifs <;> omega) | omega

theorem is_legal_vertical_eq (board : Int → Int → Char) (move : Pos) (d : Int) (n : Nat)
    (r c : Int) (hd : d = 1 ∨ d = -1) (hr : move.row = r + n * d) :
    is_legal_vertical board move r c = line_open board d 0 n r c := by
  induction n generalizing r with
  | zero =>
    rw [is_legal_vertical]
    simp at hr
    simp [hr, line_open]
  | succ n ih =>
    obtain ⟨hs, hne⟩ := step_toward_eq r move.row d n hd hr
    rw [is_legal_vertical, line_open]
    simp only [hne, ne_eq, not_false_eq_true, if_true, hs, add_zero]
    rw [ih (r + d) (by rw [hr]; push_cast; ring)]

theorem is_legal_horizontal_eq (board : Int → Int → Char) (move : Pos) (d : Int) (n : Nat)
    (r c : Int) (hd : d = 1 ∨ d = -1) (hc : move.col = c + n * d) :
    is_legal_horizontal board move r c = line_open board 0 d n r c := by
  induction n generalizing c with
  | zero =>
    rw [is_legal_horizontal]
    simp at hc
    simp [hc, line_open]
  | succ n ih =>
    obtain ⟨hs, hne⟩ := step_toward_eq c move.col d n hd hc
    rw [is_legal_horizontal, line_open]
    simp only [hne, ne_eq, not_false_eq_true, if_true, hs, add_zero]
    rw [ih (c + d) (by rw [hc]; push_cast; ring)]

theorem is_legal_diagonal_eq (board : Int → Int → Char) (move : Pos) (dr dc : Int) (n : Nat)
    (r c : Int) (hdr : dr = 1 ∨ dr = -1) (hdc : dc = 1 ∨ dc = -1)
    (hr : move.row = r + n * dr) (hc : move.col = c + n * dc) :
    is_legal_diagonal board move r c = line_open board dr dc n r c := by
  induction n generalizing r c with
  | zero =>
    rw [is_legal_diagonal]
    simp at hr hc
    simp [hr, hc, line_open]
  | succ n ih =>
    obtain ⟨hsr, hner⟩ := step_toward_eq r move.row dr n hdr hr
    obtain ⟨hsc, hnec⟩ := step_toward_eq c move.col dc n hdc hc
    rw [is_legal_diagonal, line_open]
    simp only [hner, hnec, ne_eq, not_false_eq_true, and_self, if_true, hsr, hsc]
    rw [ih (r + dr) (c + dc) (by rw [hr]; push_cast; ring) (by rw [hc]; push_cast; ring)]

theorem sign_cases (a : Int) :
    (a = 0 ∧ Int.sign a = 0 ∧ a.natAbs = 0) ∨
    (0 < a ∧ Int.sign a = 1 ∧ (a.natAbs : Int) = a) ∨
    (a < 0 ∧ Int.sign a = -1 ∧ (a.natAbs : Int) = -a) := by
  rcases lt_trichotomy a 0 with h | h | h
  · exact Or.inr (Or.inr ⟨h, Int.sign_eq_neg_one_of_neg h, by omega⟩)
  · subst h; exact Or.inl ⟨rfl, rfl, rfl⟩
  · exact Or.inr (Or.inl ⟨h, Int.sign_eq_one_of_pos h, by omega⟩)

/-- Closed form of `is_legal`: the target is on the board, is not the player's cell, is
aligned with it, and the cells of the line up to the target are open. -/
theorem is_legal_iff_line (s : State) (pl : Char) (t : Pos) :
    is_legal s pl t = true ↔
      in_board t ∧ t ≠ position_of s pl ∧ aligned (position_of s pl) t ∧
      line_open s.board (Int.sign (t.row - (position_of s pl).row))
        (Int.sign (t.col - (position_of s pl).col)) (dist (position_of s pl) t)
        (position_of s pl).row (position_of s pl).col = true := by
  simp only [is_legal, position_of]
  generalize (if pl = 'x' then s.x_pos else s.o_pos) = p
  obtain ⟨pr, pc⟩ := p
  obtain ⟨tr, tc⟩ := t
  simp only [in_board, aligned, dist, ne_eq, Pos.mk.injEq]
  by_cases hb : 0 ≤ tr ∧ tr ≤ 3 ∧ 0 ≤ tc ∧ tc ≤ 3
  swap
  · have : tr < 0 ∨ tr > 3 ∨ tc < 0 ∨ tc > 3 := by omega
    simp [this]
    intro h1 h2 h3 h4
    omega
  have hnb : ¬ (tr < 0 ∨ tr > 3 ∨ tc < 0 ∨ tc > 3) := by omega
  by_cases hr0 : pr = tr
  · by_cases hc0 : pc = tc
    · simp [hr0, hc0]
    · have hn : ¬ (tr = pr ∧ tc = pc) := fun h => hc0 h.2.symm
      simp only [hnb, hr0, hc0, hn, and_false, or_self, if_false, not_true_eq_false,
        false_and, not_false_eq_true, if_true, hb, true_or, true_and, sub_self,
        Int.sign_zero, Int.natAbs_zero]
      rcases sign_cases (tc - pc) with ⟨hc, _, _⟩ | ⟨hc, sc, nc⟩ | ⟨hc, sc, nc⟩
      · omega
      · rw [sc, is_legal_horizontal_eq s.board ⟨tr, tc⟩ 1 (tc - pc).natAbs tr pc (Or.inl rfl)
          (by simp only [nc]; ring)]
        simp
        intro _; omega
      · rw [sc, is_legal_horizontal_eq s.board ⟨tr, tc⟩ (-1) (tc - pc).natAbs tr pc
          (Or.inr rfl) (by simp only [nc]; ring)]
        simp
        intro _; omega
  · by_cases hc0 : pc = tc
    · have hn : ¬ (tr = pr ∧ tc = pc) := fun h => hr0 h.1.symm
      simp only [hnb, hr0, hc0, hn, and_false, false_and, or_self, if_false,
        not_true_eq_false, not_false_eq_true, if_true, hb, true_or, or_true, true_and,
        sub_self, Int.sign_zero, Int.natAbs_zero]
      rcases sign_cases (tr - pr) with ⟨hr, _, _⟩ | ⟨hr, sr, nr⟩ | ⟨hr, sr, nr⟩
      · omega
      · rw [sr, is_legal_vertical_eq s.board ⟨tr, tc⟩ 1 (tr - pr).natAbs pr tc (Or.inl rfl)
          (by simp only [nr]; ring)]
        simp
        intro _; omega
      · rw [sr, is_legal_vertical_eq s.board ⟨tr, tc⟩ (-1) (tr - pr).natAbs pr tc
          (Or.inr rfl) (by simp only [nr]; ring)]
        simp
        intro _; omega
    · have hn : ¬ (tr = pr ∧ tc = pc) := fun h => hr0 h.1.symm
      simp only [hnb, hr0, hc0, hn, and_false, false_and, or_self, if_false,
        not_false_eq_true, and_self, if_true, hb, false_or, true_and, ite_not]
      by_cases hd : (tr - pr).natAbs = (tc - pc).natAbs
      swap
      · have hd2 : ¬ (pr - tr).natAbs = (pc - tc).natAbs := by omega
        simp [hd, hd2]
      have hd2 : (pr - tr).natAbs = (pc - tc).natAbs := by omega
      simp only [hd, hd2, if_true, true_and, max_self]
      have key : ∀ dr dc : Int, (dr = 1 ∨ dr = -1) → (dc = 1 ∨ dc = -1) →
          tr = pr + ((tc - pc).natAbs : Int) * dr → tc = pc + ((tc - pc).natAbs : Int) * dc →
          (is_legal_diagonal s.board ⟨tr, tc⟩ pr pc = true ↔
            line_open s.board dr dc (tc - pc).natAbs pr pc = true) := by
        intro dr dc h1 h2 h3 h4
        rw [is_legal_diagonal_eq s.board ⟨tr, tc⟩ dr dc (tc - pc).natAbs pr pc h1 h2 h3 h4]
      rcases sign_cases (tr - pr) with ⟨hr, _, _⟩ | ⟨hr, sr, nr⟩ | ⟨hr, sr, nr⟩ <;>
      rcases sign_cases (tc - pc) with ⟨hc, _, _⟩ | ⟨hc, sc, nc⟩ | ⟨hc, sc, nc⟩ <;>
      first
      | omega
      | (rw [sr, sc]
         exact key _ _ (by simp) (by simp) (by omega) (by omega))

theorem is_legal_eq_legal_line (s : State) (pl : Char) (t : Pos) :
    is_legal s pl t = legal_line s pl t := by
  rw [Bool.eq_iff_iff, is_legal_iff_line]
  simp [legal_line, and_assoc]

/-- On an aligned pair the last cell of the line is the target. -/
theorem line_end (p t : Pos) (h : aligned p t) :
    p.row + (dist p t : Int) * Int.sign (t.row - p.row) = t.row ∧
    p.col + (dist p t : Int) * Int.sign (t.col - p.col) = t.col := by
  unfold aligned at h
  unfold dist
  generalize hd : max (t.row - p.row).natAbs (t.col - p.col).natAbs = d
  rcases sign_cases (t.row - p.row) with ⟨hr, sr, nr⟩ | ⟨hr, sr, nr⟩ | ⟨hr, sr, nr⟩ <;>
  rcases sign_cases (t.col - p.col) with ⟨hc, sc, nc⟩ | ⟨hc, sc, nc⟩ | ⟨hc, sc, nc⟩ <;>
  rw [sr, sc] <;> constructor <;> omega

/-! ## `moves` as a filter -/

theorem foldl_push_filter {α β : Type} (f : β → α) (p : α → Bool) (l : List β)
    (init : List α) :
    l.foldl (fun acc x => if p (f x) = true then acc ++ [f x] else acc) init =
      init ++ (l.map f).filter p := by
  induction l generalizing init with
  | nil => simp
  | cons a l ih =>
    simp only [List.foldl_cons, List.map_cons, List.filter_cons, ih]
    by_cases h : p (f a) = true <;> simp [h]

theorem moves_eq_filter (s : State) (player : Char) :
    moves s player = cells.filter (fun m => is_legal s player m) := by
  unfold moves
  have h : ∀ (r : Int) (list : List Pos),
      idx4.foldl (fun list c =>
        if is_legal s player ⟨r, c⟩ = true then list ++ [⟨r, c⟩] else list) list =
      list ++ (idx4.map (Pos.mk r)).filter (fun m => is_legal s player m) := by
    intro r list
    exact foldl_push_filter (Pos.mk r) (fun m => is_legal s player m) idx4 list
  simp only [h]
  simp only [idx4, cells, List.foldl_cons, List.foldl_nil, List.map_cons, List.map_nil,
    List.nil_append, List.append_assoc]
  simp only [← List.filter_append]
  rfl

/-! ## The state built by `init_board` -/

theorem set_cell_apply (b : Int → Int → Char) (r c : Int) (v : Char) (r1 c1 : Int) :
    set_cell b r c v r1 c1 = if r1 = r ∧ c1 = c then v else b r1 c1 := rfl

theorem fill_row (b : Int → Int → Char) (r r1 c1 : Int) :
    idx4.foldl (fun b c => set_cell b r c ' ') b r1 c1 =
      if r1 = r ∧ 0 ≤ c1 ∧ c1 ≤ 3 then ' ' else b r1 c1 := by
  simp only [idx4, List.foldl_cons, List.foldl_nil, set_cell_apply]
  split_ifs <;> first | rfl | omega

theorem fill_board (b : Int → Int → Char) (r1 c1 : Int) :
    idx4.foldl (fun b r => idx4.foldl (fun b c => set_cell b r c ' ') b) b r1 c1 =
      if 0 ≤ r1 ∧ r1 ≤ 3 ∧ 0 ≤ c1 ∧ c1 ≤ 3 then ' ' else b r1 c1 := by
  have hrow : ∀ (r : Int) (b : Int → Int → Char),
      idx4.foldl (fun b c => set_cell b r c ' ') b =
        fun r1 c1 => if r1 = r ∧ 0 ≤ c1 ∧ c1 ≤ 3 then ' ' else b r1 c1 := by
    intro r b
    funext r1 c1
    exact fill_row b r r1 c1
  simp only [hrow]
  simp only [idx4, List.foldl_cons, List.foldl_nil]
  split_ifs <;> first | rfl | omega

theorem init_board_board (s : State) (h f : Char) (r c : Int) :
    (init_board s h f).board r c =
      if r = 0 ∧ c = 0 then 'x'
      else if r = 3 ∧ c = 3 then 'o'
      else if 0 ≤ r ∧ r ≤ 3 ∧ 0 ≤ c ∧ c ≤ 3 then ' '
      else s.board r c := by
  simp only [init_board, set_cell_apply, fill_board]
  split_ifs <;> first | rfl | omega

/-- The closed form of `is_legal` with the line written out cell by cell; it holds for
every state. -/
theorem is_legal_iff_open (s : State) (player : Char) (t : Pos) :
    is_legal s player t = true ↔
      in_board t ∧
      t ≠ position_of s player ∧
      aligned (position_of s player) t ∧
      (∀ k : Int, 1 ≤ k → k < dist (position_of s player) t →
        s.board ((position_of s player).row + k * Int.sign (t.row - (position_of s player).row))
          ((position_of s player).col + k * Int.sign (t.col - (position_of s player).col))
          = ' ') ∧
      s.board t.row t.col = ' ' := by
  rw [is_legal_iff_line, line_open_iff]
  generalize position_of s player = p
  constructor
  · rintro ⟨h1, h2, h3, h4⟩
    refine ⟨h1, h2, h3, fun k hk1 hk2 => h4 k hk1 (le_of_lt hk2), ?_⟩
    obtain ⟨e1, e2⟩ := line_end p t h3
    have hd : 1 ≤ (dist p t : Int) := by
      rcases Nat.eq_zero_or_pos (dist p t) with h0 | h0
      · exfalso
        apply h2
        rw [h0] at e1 e2
        obtain ⟨pr, pc⟩ := p
        obtain ⟨tr, tc⟩ := t
        simp at e1 e2
        simp [e1, e2]
      · exact_mod_cast h0
    have := h4 (dist p t) hd le_rfl
    rwa [e1, e2] at this
  · rintro ⟨h1, h2, h3, h4, h5⟩
    refine ⟨h1, h2, h3, fun k hk1 hk2 => ?_⟩
    rcases eq_or_lt_of_le hk2 with hk | hk
    · obtain ⟨e1, e2⟩ := line_end p t h3
      rw [hk, e1, e2]
      exact h5
    · exact h4 k hk1 hk

theorem is_legal_in_board {s : State} {player : Char} {t : Pos}
    (h : is_legal s player t = true) : in_board t :=
  ((is_legal_iff_open s player t).1 h).1

theorem is_legal_ne_pos {s : State} {player : Char} {t : Pos}
    (h : is_legal s player t = true) : t ≠ position_of s player :=
  ((is_legal_iff_open s player t).1 h).2.1

theorem is_legal_target_open {s : State} {player : Char} {t : Pos}
    (h : is_legal s player t = true) : s.board t.row t.col = ' ' :=
  ((is_legal_iff_open s player t).1 h).2.2.2.2

/-! ## C1 -/

/-- C1: when the acting player's recorded position is on the board, `is_legal` is true
exactly when the target is on the board, differs from the player's position, lies in the
same row, the same column or on a diagonal of it, and every cell strictly between the
position and the target along that line, and the target cell itself, is open. -/
theorem is_legal_characterised (s : State) (player : Char) (t : Pos)
    (hpos : in_board (position_of s player)) :
    is_legal s player t = true ↔
      (0 ≤ t.row ∧ t.row ≤ 3 ∧ 0 ≤ t.col ∧ t.col ≤ 3) ∧
      t ≠ position_of s player ∧
      ((position_of s player).row = t.row ∨ (position_of s player).col = t.col ∨
        (t.row - (position_of s player).row).natAbs =
          (t.col - (position_of s player).col).natAbs) ∧
      (∀ k : Int, 1 ≤ k → k < dist (position_of s player) t →
        s.board ((position_of s player).row + k * Int.sign (t.row - (position_of s player).row))
          ((position_of s player).col + k * Int.sign (t.col - (position_of s player).col))
          = ' ') ∧
      s.board t.row t.col = ' ' := by
  have _ := hpos
  exact is_legal_iff_open s player t

/-- C1 at the start state: `'x'` moving from (0,0) to (0,2). -/
theorem is_legal_characterised_witness :
    in_board (position_of start_state 'x') ∧
    (is_legal start_state 'x' ⟨0, 2⟩ = true ↔
      (0 ≤ (⟨0, 2⟩ : Pos).row ∧ (⟨0, 2⟩ : Pos).row ≤ 3 ∧
        0 ≤ (⟨0, 2⟩ : Pos).col ∧ (⟨0, 2⟩ : Pos).col ≤ 3) ∧
      (⟨0, 2⟩ : Pos) ≠ position_of start_state 'x' ∧
      ((position_of start_state 'x').row = (⟨0, 2⟩ : Pos).row ∨
        (position_of start_state 'x').col = (⟨0, 2⟩ : Pos).col ∨
        ((⟨0, 2⟩ : Pos).row - (position_of start_state 'x').row).natAbs =
          ((⟨0, 2⟩ : Pos).col - (position_of start_state 'x').col).natAbs) ∧
      (∀ k : Int, 1 ≤ k → k < dist (position_of start_state 'x') ⟨0, 2⟩ →
        start_state.board
          ((position_of start_state 'x').row +
            k * Int.sign ((⟨0, 2⟩ : Pos).row - (position_of start_state 'x').row))
          ((position_of start_state 'x').col +
            k * Int.sign ((⟨0, 2⟩ : Pos).col - (position_of start_state 'x').col))
          = ' ') ∧
      start_state.board (⟨0, 2⟩ : Pos).row (⟨0, 2⟩ : Pos).col = ' ') :=
  ⟨by decide, is_legal_characterised start_state 'x' ⟨0, 2⟩ (by decide)⟩

/-! ## C2 -/

theorem moves_init_x (s0 : State) (human_choice first : Char) :
    moves (init_board s0 human_choice first) 'x' =
      [⟨0, 1⟩, ⟨0, 2⟩, ⟨0, 3⟩, ⟨1, 0⟩, ⟨1, 1⟩, ⟨2, 0⟩, ⟨2, 2⟩, ⟨3, 0⟩] := by
  rw [moves_eq_filter]
  have hx : (init_board s0 human_choice first).x_pos = ⟨0, 0⟩ := rfl
  have hs1 : Int.sign 1 = 1 := rfl
  have hs2 : Int.sign 2 = 1 := rfl
  have hs3 : Int.sign 3 = 1 := rfl
  simp only [is_legal_eq_legal_line]
  simp [cells, List.filter_cons, legal_line, position_of, init_board_board, in_board, aligned,
    dist, line_open, hx, hs1, hs2, hs3]

/-- C2, as stated, fails: in the start state `moves(state, 'x')` does not consist of the 7
listed entries, because (2,2) is a legal move too. -/
theorem moves_start_not_seven :
    start_state.turn = 'x' ∧ start_state.x_pos = ⟨0, 0⟩ ∧ start_state.o_pos = ⟨3, 3⟩ ∧
    ¬ ((moves start_state 'x').length = 7 ∧
      ∀ m, m ∈ moves start_state 'x' ↔
        m ∈ [(⟨0, 1⟩ : Pos), ⟨0, 2⟩, ⟨0, 3⟩, ⟨1, 0⟩, ⟨2, 0⟩, ⟨3, 0⟩, ⟨1, 1⟩]) := by
  refine ⟨rfl, rfl, rfl, ?_⟩
  rintro ⟨hlen, -⟩
  rw [start_state, moves_init_x] at hlen
  simp at hlen

/-- C2, amended: in the start state (x at (0,0), o at (3,3), every other cell open, turn =
x) `moves(state, 'x')` has exactly the 8 entries (0,1),(0,2),(0,3),(1,0),(1,1),(2,0),(2,2),
(3,0), in this row-major order: the 7 listed entries and (2,2). -/
theorem moves_start_eight (s0 : State) (human_choice : Char) :
    (init_board s0 human_choice 'x').turn = 'x' ∧
    (init_board s0 human_choice 'x').x_pos = ⟨0, 0⟩ ∧
    (init_board s0 human_choice 'x').o_pos = ⟨3, 3⟩ ∧
    (∀ r c : Int, 0 ≤ r → r ≤ 3 → 0 ≤ c → c ≤ 3 →
      (init_board s0 human_choice 'x').board r c =
        if r = 0 ∧ c = 0 then 'x' else if r = 3 ∧ c = 3 then 'o' else ' ') ∧
    (moves (init_board s0 human_choice 'x') 'x').length = 8 ∧
    (∀ m, m ∈ moves (init_board s0 human_choice 'x') 'x' ↔
      m ∈ [(⟨0, 1⟩ : Pos), ⟨0, 2⟩, ⟨0, 3⟩, ⟨1, 0⟩, ⟨2, 0⟩, ⟨3, 0⟩, ⟨1, 1⟩, ⟨2, 2⟩]) ∧
    moves (init_board s0 human_choice 'x') 'x' =
      [⟨0, 1⟩, ⟨0, 2⟩, ⟨0, 3⟩, ⟨1, 0⟩, ⟨1, 1⟩, ⟨2, 0⟩, ⟨2, 2⟩, ⟨3, 0⟩] := by
  have hm := moves_init_x s0 human_choice 'x'
  refine ⟨rfl, rfl, rfl, ?_, ?_, ?_, hm⟩
  · intro r c h1 h2 h3 h4
    rw [init_board_board]
    split_ifs <;> first | rfl | omega
  · rw [hm]; rfl
  · intro m
    rw [hm]
    simp only [List.mem_cons, List.mem_singleton, List.not_mem_nil, or_false]
    tauto

/-! ## C3 -/

/-- C3: for a state whose turn is `'x'` or `'o'`, `winner` differs from `'n'` exactly when
the player to move has no moves, and then the winner is the other symbol. -/
theorem winner_iff (s : State) (ht : s.turn = 'x' ∨ s.turn = 'o') :
    (winner s ≠ 'n' ↔ moves s s.turn = []) ∧
    (moves s s.turn = [] → winner s = other_player s.turn ∧ winner s ≠ s.turn) := by
  unfold winner other_player
  rcases ht with ht | ht
  · rw [ht]
    by_cases h : moves s 'x' = []
    · simp [h]
    · simp [h]
  · rw [ht]
    by_cases h : moves s 'o' = []
    · simp [h]
    · simp [h]

/-- C3 at the start state, where `'x'` is to move. -/
theorem winner_iff_witness :
    (start_state.turn = 'x' ∨ start_state.turn = 'o') ∧
    ((winner start_state ≠ 'n' ↔ moves start_state start_state.turn = []) ∧
     (moves start_state start_state.turn = [] →
        winner start_state = other_player start_state.turn ∧
        winner start_state ≠ start_state.turn)) :=
  ⟨Or.inl rfl, winner_iff start_state (Or.inl rfl)⟩

/-! ## `make_move` -/

theorem make_move_of_legal_x (s : State) (t : Pos) (h : is_legal s 'x' t = true) :
    make_move s 'x' t =
      (true, { s with
        board := set_cell (set_cell s.board t.row t.col 'x') s.x_pos.row s.x_pos.col '.'
        x_pos := t }) := by
  simp [make_move, h]

theorem make_move_of_legal_o (s : State) (player : Char) (t : Pos) (hp : player ≠ 'x')
    (h : is_legal s player t = true) :
    make_move s player t =
      (true, { s with
        board := set_cell (set_cell s.board t.row t.col 'o') s.o_pos.row s.o_pos.col '.'
        o_pos := t }) := by
  simp [make_move, h, hp]

theorem make_move_of_illegal (s : State) (player : Char) (t : Pos)
    (h : is_legal s player t = false) : make_move s player t = (false, s) := by
  simp [make_move, h]

theorem make_move_fst (s : State) (player : Char) (t : Pos) :
    (make_move s player t).1 = is_legal s player t := by
  cases h : is_legal s player t
  · rw [make_move_of_illegal s player t h]
  · by_cases hp : player = 'x'
    · subst hp; rw [make_move_of_legal_x s t h]
    · rw [make_move_of_legal_o s player t hp h]

theorem one_step_legal (s : State) (player : Char) (t : Pos) (hb : in_board t)
    (h1 : one_step (position_of s player) t) (ho : s.board t.row t.col = ' ') :
    is_legal s player t = true := by
  rw [is_legal_iff_open]
  unfold one_step at h1
  refine ⟨hb, ?_, ?_, ?_, ho⟩
  · intro h
    rw [h] at h1
    simp [dist] at h1
  · unfold dist at h1
    unfold aligned
    omega
  · intro k hk1 hk2
    rw [h1] at hk2
    simp at hk2
    omega

/-! ## C4 -/

/-- C4: a legal move of `'x'` or `'o'` succeeds; afterwards the cell at the old position
holds `'.'`, the target cell holds the player's marker and the player's recorded position
is the target.  A move of one step onto an open cell of the board is such a legal move. -/
theorem make_move_legal (s : State) (player : Char) (t : Pos)
    (hp : player = 'x' ∨ player = 'o')
    (hl : is_legal s player t = true ∨
      (in_board t ∧ one_step (position_of s player) t ∧ s.board t.row t.col = ' ')) :
    is_legal s player t = true ∧
    (make_move s player t).1 = true ∧
    (make_move s player t).2.board (position_of s player).row (position_of s player).col = '.' ∧
    (make_move s player t).2.board t.row t.col = player ∧
    position_of (make_move s player t).2 player = t := by
  have hleg : is_legal s player t = true := by
    rcases hl with hl | ⟨hb, h1, ho⟩
    · exact hl
    · exact one_step_legal s player t hb h1 ho
  have hne := is_legal_ne_pos hleg
  refine ⟨hleg, ?_⟩
  rcases hp with hp | hp
  · subst hp
    rw [make_move_of_legal_x s t hleg]
    simp only [position_of, if_true, set_cell_apply, and_self, true_and] at hne ⊢
    have : ¬ (t.row = s.x_pos.row ∧ t.col = s.x_pos.col) := by
      intro h; apply hne
      obtain ⟨tr, tc⟩ := t
      simp at h
      rw [h.1, h.2]
    simp [this]
  · subst hp
    rw [make_move_of_legal_o s 'o' t (by decide) hleg]
    have hpo : position_of s 'o' = s.o_pos := rfl
    rw [hpo] at hne ⊢
    have hpo2 : ∀ s1 : State, position_of s1 'o' = s1.o_pos := fun _ => rfl
    simp only [hpo2, set_cell_apply, and_self, if_true, true_and]
    have : ¬ (t.row = s.o_pos.row ∧ t.col = s.o_pos.col) := by
      intro h; apply hne
      obtain ⟨tr, tc⟩ := t
      simp at h
      rw [h.1, h.2]
    simp [this]

/-- C4 at the start state: `'x'` steps from (0,0) onto the open cell (1,1). -/
theorem make_move_legal_witness :
    (('x' : Char) = 'x' ∨ ('x' : Char) = 'o') ∧
    (in_board ⟨1, 1⟩ ∧ one_step (position_of start_state 'x') ⟨1, 1⟩ ∧
      start_state.board (⟨1, 1⟩ : Pos).row (⟨1, 1⟩ : Pos).col = ' ') ∧
    (is_legal start_state 'x' ⟨1, 1⟩ = true ∧
    (make_move start_state 'x' ⟨1, 1⟩).1 = true ∧
    (make_move start_state 'x' ⟨1, 1⟩).2.board (position_of start_state 'x').row
      (position_of start_state 'x').col = '.' ∧
    (make_move start_state 'x' ⟨1, 1⟩).2.board (⟨1, 1⟩ : Pos).row (⟨1, 1⟩ : Pos).col = 'x' ∧
    position_of (make_move start_state 'x' ⟨1, 1⟩).2 'x' = ⟨1, 1⟩) :=
  ⟨Or.inl rfl, ⟨by decide, by decide, by decide⟩,
    make_move_legal start_state 'x' ⟨1, 1⟩ (Or.inl rfl)
      (Or.inr ⟨by decide, by decide, by decide⟩)⟩

/-! ## C5 -/

/-- C5: `make_move` returns false exactly when `is_legal` is false, and then the state it
leaves is the state it was given; a target off the board is rejected in this way. -/
theorem make_move_false_iff (s : State) (player : Char) (t : Pos) :
    ((make_move s player t).1 = false ↔ is_legal s player t = false) ∧
    ((make_move s player t).1 = false → (make_move s player t).2 = s) ∧
    (¬ in_board t → make_move s player t = (false, s)) := by
  refine ⟨by rw [make_move_fst], ?_, ?_⟩
  · intro h
    rw [make_move_fst] at h
    rw [make_move_of_illegal s player t h]
  · intro hb
    apply make_move_of_illegal
    cases h : is_legal s player t
    · rfl
    · exact absurd (is_legal_in_board h) hb

/-! ## C6 -/

/-- C6: a successful `make_move` of `'x'` or `'o'` leaves `turn`, `ai`, `human` and the
other player's recorded position as they were, and changes no board cell other than the
mover's old cell and the target cell. -/
theorem make_move_frame (s : State) (player : Char) (t : Pos)
    (hp : player = 'x' ∨ player = 'o') (hok : (make_move s player t).1 = true) :
    (make_move s player t).2.turn = s.turn ∧
    (make_move s player t).2.ai = s.ai ∧
    (make_move s player t).2.human = s.human ∧
    position_of (make_move s player t).2 (other_player player) =
      position_of s (other_player player) ∧
    (∀ r c : Int, (⟨r, c⟩ : Pos) ≠ position_of s player → (⟨r, c⟩ : Pos) ≠ t →
      (make_move s player t).2.board r c = s.board r c) := by
  rw [make_move_fst] at hok
  rcases hp with hp | hp
  · subst hp
    rw [make_move_of_legal_x s t hok]
    refine ⟨rfl, rfl, rfl, rfl, ?_⟩
    intro r c h1 h2
    obtain ⟨tr, tc⟩ := t
    simp only [position_of, if_true, ne_eq, Pos.mk.injEq, set_cell_apply] at h1 h2 ⊢
    have hx : s.x_pos = ⟨s.x_pos.row, s.x_pos.col⟩ := rfl
    rw [hx, Pos.mk.injEq] at h1
    simp [h1, h2]
  · subst hp
    rw [make_move_of_legal_o s 'o' t (by decide) hok]
    refine ⟨rfl, rfl, rfl, rfl, ?_⟩
    intro r c h1 h2
    obtain ⟨tr, tc⟩ := t
    have hpo : position_of s 'o' = ⟨s.o_pos.row, s.o_pos.col⟩ := rfl
    rw [hpo] at h1
    simp only [ne_eq, Pos.mk.injEq, set_cell_apply] at h1 h2 ⊢
    simp [h1, h2]

/-- C6 at the start state: `'x'` moves from (0,0) to (1,1). -/
theorem make_move_frame_witness :
    (('x' : Char) = 'x' ∨ ('x' : Char) = 'o') ∧
    (make_move start_state 'x' ⟨1, 1⟩).1 = true ∧
    ((make_move start_state 'x' ⟨1, 1⟩).2.turn = start_state.turn ∧
    (make_move start_state 'x' ⟨1, 1⟩).2.ai = start_state.ai ∧
    (make_move start_state 'x' ⟨1, 1⟩).2.human = start_state.human ∧
    position_of (make_move start_state 'x' ⟨1, 1⟩).2 (other_player 'x') =
      position_of start_state (other_player 'x') ∧
    (∀ r c : Int, (⟨r, c⟩ : Pos) ≠ position_of start_state 'x' → (⟨r, c⟩ : Pos) ≠ ⟨1, 1⟩ →
      (make_move start_state 'x' ⟨1, 1⟩).2.board r c = start_state.board r c)) :=
  have h : (make_move start_state 'x' ⟨1, 1⟩).1 = true := by
    rw [make_move_fst, is_legal_eq_legal_line]; decide
  ⟨Or.inl rfl, h, make_move_frame start_state 'x' ⟨1, 1⟩ (Or.inl rfl) h⟩

/-! ## C7 -/

theorem mem_cells (m : Pos) : m ∈ cells ↔ in_board m := by
  obtain ⟨r, c⟩ := m
  constructor
  · intro h
    simp only [cells, List.mem_cons, Pos.mk.injEq, List.mem_singleton, List.not_mem_nil,
      or_false] at h
    simp only [in_board]
    omega
  · rintro ⟨h1, h2, h3, h4⟩
    simp only at h1 h2 h3 h4
    interval_cases r <;> interval_cases c <;> simp [cells]

theorem cells_sorted : cells.Pairwise row_major_lt := by
  decide

theorem row_major_lt_irrefl (p : Pos) : ¬ row_major_lt p p := by
  unfold row_major_lt; omega

theorem moves_sorted (s : State) (player : Char) :
    (moves s player).Pairwise row_major_lt := by
  rw [moves_eq_filter]
  exact cells_sorted.filter _

theorem mem_moves (s : State) (player : Char) (m : Pos) :
    m ∈ moves s player ↔ is_legal s player m = true := by
  rw [moves_eq_filter, List.mem_filter, mem_cells]
  exact ⟨fun h => h.2, fun h => ⟨is_legal_in_board h, h⟩⟩

/-- C7: `moves(state, player)` is the row-major enumeration of the 16 board cells
filtered by `is_legal`: a cell is in the list iff it is legal, no cell appears twice, and
the entries are in strictly increasing row-major order. -/
theorem moves_spec (s : State) (player : Char) :
    cells.length = 16 ∧ (∀ m, m ∈ cells ↔ in_board m) ∧ cells.Pairwise row_major_lt ∧
    moves s player = cells.filter (fun m => is_legal s player m) ∧
    (∀ m, m ∈ cells → (m ∈ moves s player ↔ is_legal s player m = true)) ∧
    (moves s player).Nodup ∧
    (moves s player).Pairwise row_major_lt := by
  refine ⟨rfl, mem_cells, cells_sorted, moves_eq_filter s player,
    fun m _ => mem_moves s player m, ?_, moves_sorted s player⟩
  exact (moves_sorted s player).imp_of_mem (fun {a b} _ _ hab heq => by
    subst heq; exact row_major_lt_irrefl a hab)

/-! ## C8 -/

theorem make_move_board_ne_open (s : State) (player : Char) (t : Pos) (r c : Int)
    (h : s.board r c ≠ ' ') : (make_move s player t).2.board r c ≠ ' ' := by
  cases hl : is_legal s player t
  · rw [make_move_of_illegal s player t hl]; exact h
  · by_cases hp : player = 'x'
    · subst hp
      rw [make_move_of_legal_x s t hl]
      simp only [set_cell_apply]
      split_ifs <;> first | exact h | decide
    · rw [make_move_of_legal_o s player t hp hl]
      simp only [set_cell_apply]
      split_ifs <;> first | exact h | decide

theorem reach_board_ne_open (s s1 : State) (r c : Int) (h : s.board r c ≠ ' ')
    (hr : Reach s s1) : s1.board r c ≠ ' ' := by
  induction hr with
  | start => exact h
  | move s1 player t _ _ ih => exact make_move_board_ne_open s1 player t r c ih
  | flip s1 _ ih => exact ih

/-- C8: a successful `make_move` leaves every non-open cell non-open; hence in any state
reached by successful `make_move` calls (and turn flips) a cell that was non-open is still
non-open, is not a legal target for any player, and a `make_move` onto it fails. -/
theorem cell_never_freed (s : State) (r c : Int) (h : s.board r c ≠ ' ') :
    (∀ player t, (make_move s player t).1 = true →
      (make_move s player t).2.board r c ≠ ' ') ∧
    (∀ s1, Reach s s1 →
      s1.board r c ≠ ' ' ∧
      ∀ player, is_legal s1 player ⟨r, c⟩ = false ∧ (make_move s1 player ⟨r, c⟩).1 = false) := by
  refine ⟨fun player t _ => make_move_board_ne_open s player t r c h, ?_⟩
  intro s1 hr
  have h1 := reach_board_ne_open s s1 r c h hr
  refine ⟨h1, fun player => ?_⟩
  have hl : is_legal s1 player ⟨r, c⟩ = false := by
    cases hl : is_legal s1 player ⟨r, c⟩
    · rfl
    · exact absurd (is_legal_target_open hl) h1
  exact ⟨hl, by rw [make_move_fst, hl]⟩

/-- C8 at the start state, for the cell (3,3) that `'o'` occupies. -/
theorem cell_never_freed_witness :
    start_state.board 3 3 ≠ ' ' ∧
    ((∀ player t, (make_move start_state player t).1 = true →
      (make_move start_state player t).2.board 3 3 ≠ ' ') ∧
    (∀ s1, Reach start_state s1 →
      s1.board 3 3 ≠ ' ' ∧
      ∀ player, is_legal s1 player ⟨3, 3⟩ = false ∧
        (make_move s1 player ⟨3, 3⟩).1 = false)) :=
  ⟨by decide, cell_never_freed start_state 3 3 (by decide)⟩

/-! ## C9 -/

theorem pos_eq_iff (p q : Pos) : p = q ↔ p.row = q.row ∧ p.col = q.col := by
  obtain ⟨a, b⟩ := p
  obtain ⟨c, d⟩ := q
  simp

theorem cells_nodup : cells.Nodup :=
  cells_sorted.imp_of_mem (fun {a b} _ _ hab heq => by
    subst heq; exact row_major_lt_irrefl a hab)

/-- On the cell list, "exactly one cell satisfies `P`" says that the cell `a` satisfying
it is the only one. -/
theorem countP_cells_eq_one (P : Pos → Prop) [DecidablePred P] (a : Pos) (ha : a ∈ cells)
    (hPa : P a) :
    cells.countP (fun p => decide (P p)) = 1 ↔ ∀ b ∈ cells, P b → b = a := by
  constructor
  · intro h b hb hPb
    rw [List.countP_eq_length_filter, List.length_eq_one] at h
    obtain ⟨z, hz⟩ := h
    have h1 : a ∈ cells.filter (fun p => decide (P p)) :=
      List.mem_filter.2 ⟨ha, by simpa using hPa⟩
    have h2 : b ∈ cells.filter (fun p => decide (P p)) :=
      List.mem_filter.2 ⟨hb, by simpa using hPb⟩
    rw [hz, List.mem_singleton] at h1 h2
    rw [h1, h2]
  · intro h
    have hc : cells.countP (fun p => decide (P p)) = cells.countP (fun p => p == a) := by
      apply List.countP_congr
      intro x hx
      simp only [decide_eq_true_eq, beq_iff_eq]
      exact ⟨fun hp => h x hx hp, fun hp => hp ▸ hPa⟩
    rw [hc]
    exact List.count_eq_one_of_mem cells_nodup ha

/-- The invariant with the two counts written as uniqueness statements. -/
theorem state_inv_iff (s : State) :
    state_inv s ↔
      in_board s.x_pos ∧ in_board s.o_pos ∧
      s.board s.x_pos.row s.x_pos.col = 'x' ∧ s.board s.o_pos.row s.o_pos.col = 'o' ∧
      (∀ p ∈ cells, s.board p.row p.col = 'x' → p = s.x_pos) ∧
      (∀ p ∈ cells, s.board p.row p.col = 'o' → p = s.o_pos) ∧
      (∀ p ∈ cells, s.board p.row p.col = 'x' ∨ s.board p.row p.col = 'o' ∨
        s.board p.row p.col = ' ' ∨ s.board p.row p.col = '.') := by
  unfold state_inv
  constructor
  · rintro ⟨⟨a1, a2⟩, ⟨b1, b2⟩, ⟨c1, c2, c3⟩, -⟩
    refine ⟨a1, a2, b1, b2, ?_, ?_, c3⟩
    · exact (countP_cells_eq_one (fun p => s.board p.row p.col = 'x') s.x_pos
        ((mem_cells _).2 a1) b1).1 c1
    · exact (countP_cells_eq_one (fun p => s.board p.row p.col = 'o') s.o_pos
        ((mem_cells _).2 a2) b2).1 c2
  · rintro ⟨a1, a2, b1, b2, c1, c2, c3⟩
    refine ⟨⟨a1, a2⟩, ⟨b1, b2⟩, ⟨?_, ?_, c3⟩, ?_⟩
    · exact (countP_cells_eq_one (fun p => s.board p.row p.col = 'x') s.x_pos
        ((mem_cells _).2 a1) b1).2 c1
    · exact (countP_cells_eq_one (fun p => s.board p.row p.col = 'o') s.o_pos
        ((mem_cells _).2 a2) b2).2 c2
    · intro h
      rw [h, b2] at b1
      exact absurd b1 (by decide)

theorem state_inv_init_board (s0 : State) (human_choice first : Char) :
    state_inv (init_board s0 human_choice first) := by
  rw [state_inv_iff]
  have hx : (init_board s0 human_choice first).x_pos = ⟨0, 0⟩ := rfl
  have ho : (init_board s0 human_choice first).o_pos = ⟨3, 3⟩ := rfl
  rw [hx, ho]
  simp only [init_board_board]
  refine ⟨by decide, by decide, by simp, by simp, ?_, ?_, ?_⟩
  · intro p hp
    rw [pos_eq_iff]
    have := (mem_cells p).1 hp
    unfold in_board at this
    split_ifs with h1 h2 <;> first | (intro _; exact h1) | (intro h; exact absurd h (by decide))
  · intro p hp
    rw [pos_eq_iff]
    have := (mem_cells p).1 hp
    unfold in_board at this
    split_ifs with h1 h2 <;> first | (intro _; exact h2) | (intro h; exact absurd h (by decide))
  · intro p hp
    have := (mem_cells p).1 hp
    unfold in_board at this
    split_ifs <;> simp

theorem state_inv_move_board (b : Int → Int → Char) (old other t : Pos) (v w : Char)
    (hvw : v ≠ w) (hv : v = 'x' ∨ v = 'o') (hw : w = 'x' ∨ w = 'o')
    (hold : b old.row old.col = v) (hother : b other.row other.col = w)
    (hto : b t.row t.col = ' ')
    (huv : ∀ p ∈ cells, b p.row p.col = v → p = old)
    (huw : ∀ p ∈ cells, b p.row p.col = w → p = other)
    (hall : ∀ p ∈ cells, b p.row p.col = 'x' ∨ b p.row p.col = 'o' ∨
      b p.row p.col = ' ' ∨ b p.row p.col = '.') :
    let b1 := set_cell (set_cell b t.row t.col v) old.row old.col '.'
    b1 t.row t.col = v ∧ b1 other.row other.col = w ∧
    (∀ p ∈ cells, b1 p.row p.col = v → p = t) ∧
    (∀ p ∈ cells, b1 p.row p.col = w → p = other) ∧
    (∀ p ∈ cells, b1 p.row p.col = 'x' ∨ b1 p.row p.col = 'o' ∨
      b1 p.row p.col = ' ' ∨ b1 p.row p.col = '.') := by
  have hvd : v ≠ '.' := by rcases hv with h | h <;> rw [h] <;> decide
  have hwd : w ≠ '.' := by rcases hw with h | h <;> rw [h] <;> decide
  have hvs : v ≠ ' ' := by rcases hv with h | h <;> rw [h] <;> decide
  have hws : w ≠ ' ' := by rcases hw with h | h <;> rw [h] <;> decide
  have key : ∀ p : Pos,
      set_cell (set_cell b t.row t.col v) old.row old.col '.' p.row p.col =
        if p = old then '.' else if p = t then v else b p.row p.col := by
    intro p
    simp only [set_cell_apply, pos_eq_iff]
  have hto_old : t ≠ old := by
    intro h; rw [h, hold] at hto; exact hvs hto
  have hto_other : t ≠ other := by
    intro h; rw [h, hother] at hto; exact hws hto
  have hoo : other ≠ old := by
    intro h; rw [h, hold] at hother; exact hvw hother
  intro b1
  simp only [b1, key]
  refine ⟨by simp [hto_old], by simp [hoo, hto_other.symm, hother], ?_, ?_, ?_⟩
  · intro p hp
    split_ifs with h1 h2
    · intro h; exact absurd h.symm hvd
    · intro _; exact h2
    · intro h; exact absurd (huv p hp h) h1
  · intro p hp
    split_ifs with h1 h2
    · intro h; exact absurd h.symm hwd
    · intro h; exact absurd h hvw
    · intro h; exact huw p hp h
  · intro p hp
    split_ifs with h1 h2
    · simp
    · rcases hv with h | h <;> simp [h]
    · exact hall p hp

theorem state_inv_make_move (s : State) (player : Char) (t : Pos) (hinv : state_inv s)
    (hp : player = 'x' ∨ player = 'o') (hok : (make_move s player t).1 = true) :
    state_inv (make_move s player t).2 := by
  rw [make_move_fst] at hok
  have hb := is_legal_in_board hok
  have hopen := is_legal_target_open hok
  rw [state_inv_iff] at hinv ⊢
  obtain ⟨a1, a2, b1, b2, c1, c2, c3⟩ := hinv
  rcases hp with hp | hp
  · subst hp
    rw [make_move_of_legal_x s t hok]
    obtain ⟨h1, h2, h3, h4, h5⟩ := state_inv_move_board s.board s.x_pos s.o_pos t 'x' 'o'
      (by decide) (Or.inl rfl) (Or.inr rfl) b1 b2 hopen c1 c2 c3
    exact ⟨hb, a2, h1, h2, h3, h4, h5⟩
  · subst hp
    rw [make_move_of_legal_o s 'o' t (by decide) hok]
    obtain ⟨h1, h2, h3, h4, h5⟩ := state_inv_move_board s.board s.o_pos s.x_pos t 'o' 'x'
      (by decide) (Or.inr rfl) (Or.inl rfl) b2 b1 hopen c2 c1 c3
    exact ⟨a1, hb, h2, h1, h4, h3, h5⟩

theorem state_inv_flip_turn (s : State) (hinv : state_inv s) : state_inv (flip_turn s) :=
  hinv

/-- C9: the state invariant holds for the state built by `init_board`, and it is
preserved by every successful `make_move` of `'x'` or `'o'` and by flipping the turn. -/
theorem state_inv_holds :
    (∀ (s0 : State) (human_choice first : Char),
      state_inv (init_board s0 human_choice first)) ∧
    (∀ (s : State) (player : Char) (t : Pos), state_inv s →
      (player = 'x' ∨ player = 'o') → (make_move s player t).1 = true →
      state_inv (make_move s player t).2) ∧
    (∀ s : State, state_inv s → state_inv (flip_turn s)) :=
  ⟨state_inv_init_board, state_inv_make_move, state_inv_flip_turn⟩

/-! ## `minimax`: the move reference and the score -/

theorem minimax_zero (s : State) (mx : Bool) (mv : Pos) :
    minimax s 0 mx mv = (evaluate s, mv) := by
  cases mx <;> rfl

theorem minimax_succ (s : State) (d : Nat) (mx : Bool) (mv : Pos) :
    minimax s (d + 1) mx mv =
      if winner s ≠ 'n' then (evaluate s, mv)
      else if mx = true then
        (moves s s.ai).foldl
          (max_step s (d + 1) (fun t mv => minimax t d false mv)) (-1000, mv)
      else
        (moves s s.human).foldl
          (min_step s (fun t mv => minimax t d true mv)) (1000, mv) := by
  cases mx <;> rfl

theorem foldl_snd_eq {α : Type} (f : Int × Pos → α → Int × Pos) (l : List α)
    (acc : Int × Pos) (h : ∀ a m, (f a m).2 = a.2) : (l.foldl f acc).2 = acc.2 := by
  induction l generalizing acc with
  | nil => rfl
  | cons a l ih => rw [List.foldl_cons, ih, h]

theorem foldl_fst_congr {α : Type} (f : Int × Pos → α → Int × Pos) (l : List α)
    (acc acc1 : Int × Pos) (h : ∀ a a1 m, a.1 = a1.1 → (f a m).1 = (f a1 m).1)
    (hacc : acc.1 = acc1.1) : (l.foldl f acc).1 = (l.foldl f acc1).1 := by
  induction l generalizing acc acc1 with
  | nil => exact hacc
  | cons a l ih =>
    rw [List.foldl_cons, List.foldl_cons]
    exact ih _ _ (h _ _ _ hacc)

/-- Below the root depth `minimax` never writes the move reference. -/
theorem minimax_snd (s : State) (d : Nat) (mx : Bool) (mv : Pos) (hd : d < MINIMAX_DEPTH) :
    (minimax s d mx mv).2 = mv := by
  induction d generalizing s mx mv with
  | zero => rw [minimax_zero]
  | succ d ih =>
    rw [minimax_succ]
    have hd1 : d < MINIMAX_DEPTH := Nat.lt_of_succ_lt hd
    have hne : ¬ (d + 1 = MINIMAX_DEPTH) := Nat.ne_of_lt hd
    split_ifs with h1 h2
    · rfl
    · rw [foldl_snd_eq]
      intro a m
      simp only [max_step, hne, if_false]
      split_ifs <;> exact ih _ _ _ hd1
    · rw [foldl_snd_eq]
      intro a m
      simp only [min_step]
      split_ifs <;> exact ih _ _ _ hd1

/-- The score `minimax` returns does not depend on the incoming move reference. -/
theorem minimax_fst (s : State) (d : Nat) (mx : Bool) (mv mv1 : Pos) :
    (minimax s d mx mv).1 = (minimax s d mx mv1).1 := by
  induction d generalizing s mx mv mv1 with
  | zero => rw [minimax_zero, minimax_zero]
  | succ d ih =>
    rw [minimax_succ, minimax_succ]
    split_ifs with h1 h2
    · rfl
    · refine foldl_fst_congr _ _ (-1000, mv) (-1000, mv1) ?_ rfl
      intro a a1 m ha
      simp only [max_step]
      rw [ih _ _ a.2 a1.2, ha]
      split_ifs <;> rfl
    · refine foldl_fst_congr _ _ (1000, mv) (1000, mv1) ?_ rfl
      intro a a1 m ha
      simp only [min_step]
      rw [ih _ _ a.2 a1.2, ha]
      split_ifs <;> rfl

/-! ## `minimax`: bounds on the score -/

theorem moves_length_le (s : State) (player : Char) : (moves s player).length ≤ 16 := by
  rw [moves_eq_filter]
  exact List.length_filter_le _ _

theorem evaluate_bounds (s : State) : -16 ≤ evaluate s ∧ evaluate s ≤ 16 := by
  simp only [evaluate]
  have h1 := moves_length_le s s.ai
  have h2 := moves_length_le s s.human
  constructor <;> omega

theorem winner_eq_n (s : State) (ht : s.turn = 'x' ∨ s.turn = 'o') (hw : winner s = 'n') :
    moves s s.turn ≠ [] := by
  intro h
  unfold winner at hw
  rcases ht with ht | ht
  · rw [ht] at h
    simp [h, ht] at hw
  · rw [ht] at h
    simp [h, ht] at hw

theorem make_move_fields (s : State) (player : Char) (m : Pos) :
    (make_move s player m).2.ai = s.ai ∧ (make_move s player m).2.human = s.human ∧
    (make_move s player m).2.turn = s.turn := by
  unfold make_move
  split_ifs <;> exact ⟨rfl, rfl, rfl⟩

theorem child_fields (s : State) (player : Char) (m : Pos) :
    (child s player m).ai = s.ai ∧ (child s player m).human = s.human ∧
    (child s player m).turn = if s.turn = 'x' then 'o' else 'x' := by
  obtain ⟨h1, h2, h3⟩ := make_move_fields s player m
  unfold child flip_turn
  simp only [h1, h2, h3, and_self]

theorem foldl_max_bound {α : Type} (f : Int × Pos → α → Int × Pos) (lo hi : Int)
    (l : List α) (acc : Int × Pos)
    (h : ∀ a m, ∃ v, lo ≤ v ∧ v ≤ hi ∧ (f a m).1 = if v > a.1 then v else a.1) :
    acc.1 ≤ (l.foldl f acc).1 ∧ (acc.1 ≤ hi → (l.foldl f acc).1 ≤ hi) ∧
    (l ≠ [] → lo ≤ (l.foldl f acc).1) := by
  induction l generalizing acc with
  | nil => simp
  | cons a l ih =>
    rw [List.foldl_cons]
    obtain ⟨v, hv1, hv2, hv3⟩ := h acc a
    obtain ⟨i1, i2, -⟩ := ih (f acc a)
    have h1 : acc.1 ≤ (f acc a).1 := by rw [hv3]; split_ifs <;> omega
    have h2 : v ≤ (f acc a).1 := by rw [hv3]; split_ifs <;> omega
    have h3 : acc.1 ≤ hi → (f acc a).1 ≤ hi := by rw [hv3]; split_ifs <;> omega
    exact ⟨by omega, fun hh => i2 (h3 hh), fun _ => by omega⟩

theorem foldl_min_bound {α : Type} (f : Int × Pos → α → Int × Pos) (lo hi : Int)
    (l : List α) (acc : Int × Pos)
    (h : ∀ a m, ∃ v, lo ≤ v ∧ v ≤ hi ∧ (f a m).1 = if v < a.1 then v else a.1) :
    (l.foldl f acc).1 ≤ acc.1 ∧ (lo ≤ acc.1 → lo ≤ (l.foldl f acc).1) ∧
    (l ≠ [] → (l.foldl f acc).1 ≤ hi) := by
  induction l generalizing acc with
  | nil => simp
  | cons a l ih =>
    rw [List.foldl_cons]
    obtain ⟨v, hv1, hv2, hv3⟩ := h acc a
    obtain ⟨i1, i2, -⟩ := ih (f acc a)
    have h1 : (f acc a).1 ≤ acc.1 := by rw [hv3]; split_ifs <;> omega
    have h2 : (f acc a).1 ≤ v := by rw [hv3]; split_ifs <;> omega
    have h3 : lo ≤ acc.1 → lo ≤ (f acc a).1 := by rw [hv3]; split_ifs <;> omega
    exact ⟨by omega, fun hh => i2 (h3 hh), fun _ => by omega⟩

/-- When `maximizing` agrees with the turn, the score of `minimax` is the score of some
`evaluate` call, never one of the sentinels. -/
theorem minimax_bounds (s : State) (d : Nat) (mx : Bool) (mv : Pos) (hr : roles_ok s)
    (ht : s.turn = s.ai ∨ s.turn = s.human) (hmx : mx = true ↔ s.turn = s.ai) :
    -16 ≤ (minimax s d mx mv).1 ∧ (minimax s d mx mv).1 ≤ 16 := by
  induction d generalizing s mx mv with
  | zero => rw [minimax_zero]; exact evaluate_bounds s
  | succ d ih =>
    have hxo : s.turn = 'x' ∨ s.turn = 'o' := by
      rcases hr with ⟨h1, h2⟩ | ⟨h1, h2⟩ <;> rcases ht with h | h <;> rw [h] <;> simp [h1, h2]
    have hchild : ∀ player m, roles_ok (child s player m) ∧
        ((child s player m).turn = (child s player m).ai ∨
          (child s player m).turn = (child s player m).human) ∧
        ((child s player m).turn = (child s player m).ai ↔ ¬ s.turn = s.ai) := by
      intro player m
      obtain ⟨c1, c2, c3⟩ := child_fields s player m
      unfold roles_ok at hr ⊢
      rw [c1, c2, c3]
      rcases hr with ⟨h1, h2⟩ | ⟨h1, h2⟩ <;> rcases ht with h | h <;>
        simp [h1, h2, h] at *
    rw [minimax_succ]
    split_ifs with h1 h2
    · exact evaluate_bounds s
    · have hw : winner s = 'n' := not_not.1 h1
      have hne := winner_eq_n s hxo hw
      rw [hmx.1 h2] at hne
      obtain ⟨-, b2, b3⟩ := foldl_max_bound
        (max_step s (d + 1) (fun t mv => minimax t d false mv)) (-16) 16 (moves s s.ai)
        (-1000, mv) (by
          intro a m
          obtain ⟨c1, c2, c3⟩ := hchild s.ai m
          have := ih (child s s.ai m) false a.2 c1 c2 (by
            rw [c3]; simp [hmx.1 h2])
          refine ⟨(minimax (child s s.ai m) d false a.2).1, this.1, this.2, ?_⟩
          simp only [max_step, child]
          split_ifs <;> rfl)
      exact ⟨b3 hne, b2 (by norm_num)⟩
    · have hw : winner s = 'n' := not_not.1 h1
      have hne := winner_eq_n s hxo hw
      have hth : s.turn = s.human := by
        rcases ht with h | h
        · exact absurd (hmx.2 h) h2
        · exact h
      rw [hth] at hne
      obtain ⟨-, b2, b3⟩ := foldl_min_bound
        (min_step s (fun t mv => minimax t d true mv)) (-16) 16 (moves s s.human)
        (1000, mv) (by
          intro a m
          obtain ⟨c1, c2, c3⟩ := hchild s.human m
          have := ih (child s s.human m) true a.2 c1 c2 (by
            rw [c3]
            simp only [true_iff]
            intro h; exact h2 (hmx.2 h))
          refine ⟨(minimax (child s s.human m) d true a.2).1, this.1, this.2, ?_⟩
          simp only [min_step, child]
          split_ifs <;> rfl)
      exact ⟨b2 (by norm_num), b3 hne⟩

/-! ## C10 -/

theorem foldl_argmax {α : Type} (f : α → Int) (l : List α) (acc : Int × α) :
    (∀ m ∈ l, f m ≤ (l.foldl (fun a m => if f m > a.1 then (f m, m) else a) acc).1) ∧
    acc.1 ≤ (l.foldl (fun a m => if f m > a.1 then (f m, m) else a) acc).1 ∧
    ((l.foldl (fun a m => if f m > a.1 then (f m, m) else a) acc) = acc ∨
      ∃ pre post,
        l = pre ++ (l.foldl (fun a m => if f m > a.1 then (f m, m) else a) acc).2 :: post ∧
        f (l.foldl (fun a m => if f m > a.1 then (f m, m) else a) acc).2 =
          (l.foldl (fun a m => if f m > a.1 then (f m, m) else a) acc).1 ∧
        acc.1 < (l.foldl (fun a m => if f m > a.1 then (f m, m) else a) acc).1 ∧
        ∀ m ∈ pre, f m < (l.foldl (fun a m => if f m > a.1 then (f m, m) else a) acc).1) := by
  induction l generalizing acc with
  | nil => simp
  | cons a l ih =>
    simp only [List.foldl_cons]
    obtain ⟨i1, i2, i3⟩ := ih (if f a > acc.1 then (f a, a) else acc)
    generalize List.foldl (fun a m => if f m > a.1 then (f m, m) else a)
      (if f a > acc.1 then (f a, a) else acc) l = r at i1 i2 i3
    have h1 : acc.1 ≤ (if f a > acc.1 then (f a, a) else acc).1 := by
      split_ifs <;> first | (simp only; omega) | omega
    have h2 : f a ≤ (if f a > acc.1 then (f a, a) else acc).1 := by
      split_ifs <;> first | (simp only; omega) | omega
    refine ⟨?_, by omega, ?_⟩
    · intro m hm
      rcases List.mem_cons.1 hm with h | h
      · rw [h]; omega
      · exact i1 m h
    · rcases i3 with h | ⟨pre, post, e1, e2, e3, e4⟩
      · by_cases hc : f a > acc.1
        · rw [if_pos hc] at h
          right
          refine ⟨[], l, ?_, ?_, ?_, ?_⟩
          · rw [h]; rfl
          · rw [h]
          · rw [h]; exact hc
          · intro m hm; simp at hm
        · rw [if_neg hc] at h
          exact Or.inl h
      · right
        refine ⟨a :: pre, post, ?_, e2, by omega, ?_⟩
        · rw [List.cons_append, ← e1]
        · intro m hm
          rcases List.mem_cons.1 hm with h | h
          · rw [h]; omega
          · exact e4 m h

/-- C10: for a state that satisfies the invariant, with `ai` and `human` the two symbols,
the AI to move and no winner yet, the move `start_minimax` returns is a legal move of the
AI whose depth-7 minimising score is the largest among the moves of the AI, and every other
move with the same score comes later in row-major order. -/
theorem start_minimax_best (s : State) (mv0 : Pos) (hinv : state_inv s) (hr : roles_ok s)
    (ht : s.turn = s.ai) (hw : winner s = 'n') :
    is_legal s s.ai (start_minimax s mv0) = true ∧
    start_minimax s mv0 ∈ moves s s.ai ∧
    ∀ m ∈ moves s s.ai, ∀ mv1 mv2 : Pos,
      (minimax (child s s.ai m) 7 false mv1).1 ≤
        (minimax (child s s.ai (start_minimax s mv0)) 7 false mv2).1 ∧
      ((minimax (child s s.ai m) 7 false mv1).1 =
          (minimax (child s s.ai (start_minimax s mv0)) 7 false mv2).1 →
        m = start_minimax s mv0 ∨ row_major_lt (start_minimax s mv0) m) := by
  have _ := hinv
  have hxo : s.turn = 'x' ∨ s.turn = 'o' := by
    rcases hr with ⟨h1, h2⟩ | ⟨h1, h2⟩ <;> rw [ht, h1] <;> simp
  have hne : moves s s.ai ≠ [] := by
    have := winner_eq_n s hxo hw
    rwa [ht] at this
  have hstep : max_step s (7 + 1) (fun t mv => minimax t 7 false mv) =
      fun a m => if (minimax (child s s.ai m) 7 false mv0).1 > a.1
        then ((minimax (child s s.ai m) 7 false mv0).1, m) else a := by
    funext a m
    simp only [max_step]
    have e1 : (minimax (flip_turn (make_move s s.ai m).2) 7 false a.2).1 =
        (minimax (child s s.ai m) 7 false mv0).1 := minimax_fst _ _ _ _ _
    have e2 : (minimax (flip_turn (make_move s s.ai m).2) 7 false a.2).2 = a.2 :=
      minimax_snd _ _ _ _ (by decide)
    rw [e1, e2]
    split_ifs with h1 h2
    · rfl
    · exact absurd rfl h2
    · rfl
  have hstart : start_minimax s mv0 =
      ((moves s s.ai).foldl (fun a m => if (minimax (child s s.ai m) 7 false mv0).1 > a.1
        then ((minimax (child s s.ai m) 7 false mv0).1, m) else a) (-1000, mv0)).2 := by
    unfold start_minimax
    have hd : MINIMAX_DEPTH = 7 + 1 := rfl
    rw [hd, minimax_succ, if_neg (not_not.2 hw), if_pos rfl, hstep]
  obtain ⟨a1, -, a3⟩ := foldl_argmax (fun m => (minimax (child s s.ai m) 7 false mv0).1)
    (moves s s.ai) (-1000, mv0)
  rw [← hstart] at a3
  have hchild : ∀ m, -16 ≤ (minimax (child s s.ai m) 7 false mv0).1 := by
    intro m
    obtain ⟨c1, c2, c3⟩ := child_fields s s.ai m
    have hr1 : roles_ok (child s s.ai m) := by
      unfold roles_ok; rw [c1, c2]; exact hr
    refine (minimax_bounds (child s s.ai m) 7 false mv0 hr1 ?_ ?_).1
    · rw [c1, c2, c3]
      rcases hr with ⟨h1, h2⟩ | ⟨h1, h2⟩ <;> simp [h1, h2, ht]
    · rw [c1, c3]
      rcases hr with ⟨h1, h2⟩ | ⟨h1, h2⟩ <;> simp [h1, ht]
  rcases a3 with h | ⟨pre, post, e1, e2, -, e4⟩
  · exfalso
    obtain ⟨m, hm⟩ := List.exists_mem_of_ne_nil _ hne
    have h1 := a1 m hm
    rw [h] at h1
    have h2 := hchild m
    simp only at h1
    omega
  · have hmem : start_minimax s mv0 ∈ moves s s.ai := by
      rw [e1]; simp
    refine ⟨(mem_moves s s.ai _).1 hmem, hmem, ?_⟩
    intro m hm mv1 mv2
    rw [minimax_fst _ _ _ mv1 mv0, minimax_fst _ _ _ mv2 mv0]
    rw [e2]
    refine ⟨a1 m hm, ?_⟩
    intro heq
    have hs := moves_sorted s s.ai
    rw [e1] at hs hm
    rw [List.pairwise_append, List.pairwise_cons] at hs
    rcases List.mem_append.1 hm with h | h
    · have := e4 m h
      omega
    · rcases List.mem_cons.1 h with h | h
      · exact Or.inl h
      · exact Or.inr (hs.2.1.1 m h)

/-- C10 at the start state, with the AI playing `'x'` and moving first. -/
theorem start_minimax_best_witness :
    state_inv start_state ∧ roles_ok start_state ∧ start_state.turn = start_state.ai ∧
    winner start_state = 'n' ∧
    (is_legal start_state start_state.ai (start_minimax start_state ⟨0, 0⟩) = true ∧
    start_minimax start_state ⟨0, 0⟩ ∈ moves start_state start_state.ai ∧
    ∀ m ∈ moves start_state start_state.ai, ∀ mv1 mv2 : Pos,
      (minimax (child start_state start_state.ai m) 7 false mv1).1 ≤
        (minimax (child start_state start_state.ai
          (start_minimax start_state ⟨0, 0⟩)) 7 false mv2).1 ∧
      ((minimax (child start_state start_state.ai m) 7 false mv1).1 =
          (minimax (child start_state start_state.ai
            (start_minimax start_state ⟨0, 0⟩)) 7 false mv2).1 →
        m = start_minimax start_state ⟨0, 0⟩ ∨
          row_major_lt (start_minimax start_state ⟨0, 0⟩) m)) :=
  have hw : winner start_state = 'n' := by
    unfold winner
    rw [start_state, moves_init_x]
    simp [init_board]
  ⟨state_inv_init_board _ _ _, by decide, rfl, hw,
    start_minimax_best start_state ⟨0, 0⟩ (state_inv_init_board _ _ _) (by decide) rfl hw⟩

/-! ## C11 -/

/-- C11: when `depth` is 0 or `winner(state)` is not `'n'`, `minimax` returns
`evaluate(state)` and leaves the move reference as it was, whatever `maximizing` and the
incoming move are. -/
theorem minimax_base (s : State) (d : Nat) (mx : Bool) (mv : Pos)
    (h : d = 0 ∨ winner s ≠ 'n') :
    (minimax s d mx mv).1 = evaluate s ∧ (minimax s d mx mv).2 = mv := by
  cases d with
  | zero => rw [minimax_zero]; exact ⟨rfl, rfl⟩
  | succ d =>
    rcases h with h | h
    · exact absurd h (Nat.succ_ne_zero d)
    · rw [minimax_succ, if_pos h]; exact ⟨rfl, rfl⟩

theorem moves_dead_state (player : Char) : moves dead_state player = [] := by
  rw [List.eq_nil_iff_forall_not_mem]
  intro m hm
  have hl := (mem_moves dead_state player m).1 hm
  have ho := is_legal_target_open hl
  simp only [dead_state] at ho
  split_ifs at ho <;> exact absurd ho (by decide)

theorem winner_dead_state : winner dead_state = 'o' := by
  unfold winner
  rw [moves_dead_state, moves_dead_state]
  simp [dead_state]

/-- C11 at the blocked position, where `'x'` is to move and has lost, at depth 3. -/
theorem minimax_base_witness :
    ((3 : Nat) = 0 ∨ winner dead_state ≠ 'n') ∧
    ((minimax dead_state 3 true ⟨1, 1⟩).1 = evaluate dead_state ∧
     (minimax dead_state 3 true ⟨1, 1⟩).2 = ⟨1, 1⟩) :=
  have h : (3 : Nat) = 0 ∨ winner dead_state ≠ 'n' :=
    Or.inr (by rw [winner_dead_state]; decide)
  ⟨h, minimax_base dead_state 3 true ⟨1, 1⟩ h⟩

/-! ## C12 -/

/-- C12: when the AI has no moves, the root call of `minimax` does not write the move
reference, so `start_minimax` returns the value its local `move` started with. -/
theorem start_minimax_no_moves (s : State) (mv0 : Pos) (h : moves s s.ai = []) :
    (minimax s MINIMAX_DEPTH true mv0).2 = mv0 ∧ start_minimax s mv0 = mv0 := by
  have hd : MINIMAX_DEPTH = 7 + 1 := rfl
  have key : (minimax s MINIMAX_DEPTH true mv0).2 = mv0 := by
    rw [hd, minimax_succ]
    by_cases h1 : winner s ≠ 'n'
    · rw [if_pos h1]
    · rw [if_neg h1, if_pos rfl, h]; rfl
  exact ⟨key, key⟩

/-- C12 at the blocked position, where the AI `'x'` has no moves. -/
theorem start_minimax_no_moves_witness :
    moves dead_state dead_state.ai = [] ∧
    ((minimax dead_state MINIMAX_DEPTH true ⟨2, 1⟩).2 = ⟨2, 1⟩ ∧
     start_minimax dead_state ⟨2, 1⟩ = ⟨2, 1⟩) :=
  ⟨moves_dead_state _, start_minimax_no_moves dead_state ⟨2, 1⟩ (moves_dead_state _)⟩

/-! ## C13 -/

/-- C13: `evaluate` of the state with `ai` and `human` swapped is the negation of
`evaluate` of the state, and `evaluate` does not depend on the turn. -/
theorem evaluate_swap (s : State) :
    evaluate (swap_roles s) = - evaluate s ∧
    ∀ t : Char, evaluate { s with turn := t } = evaluate s := by
  have hm : ∀ player, moves (swap_roles s) player = moves s player := fun _ => rfl
  constructor
  · have e : evaluate (swap_roles s) =
        ((moves (swap_roles s) s.human).length : Int) - (moves (swap_roles s) s.ai).length :=
      rfl
    rw [e, hm, hm]
    simp only [evaluate]
    omega
  · intro t
    rfl

/-! ## C14 -/

theorem dist_three (p : Pos) (dr dc : Int) (hd : is_direction dr dc) :
    dist p ⟨p.row + 3 * dr, p.col + 3 * dc⟩ = 3 ∧
    Int.sign (p.row + 3 * dr - p.row) = dr ∧ Int.sign (p.col + 3 * dc - p.col) = dc := by
  obtain ⟨h1, h2, h3⟩ := hd
  rcases h1 with h1 | h1 | h1 <;> rcases h2 with h2 | h2 | h2 <;> subst h1 <;> subst h2 <;>
    first
    | (simp only [dist, add_sub_cancel_left]; decide)
    | exact absurd (And.intro rfl rfl) h3

theorem dist_one (p : Pos) (dr dc : Int) (hd : is_direction dr dc) :
    one_step p ⟨p.row + dr, p.col + dc⟩ := by
  obtain ⟨h1, h2, h3⟩ := hd
  rcases h1 with h1 | h1 | h1 <;> rcases h2 with h2 | h2 | h2 <;> subst h1 <;> subst h2 <;>
    first
    | (simp only [one_step, dist, add_sub_cancel_left]; decide)
    | exact absurd (And.intro rfl rfl) h3

/-- C14: when the player's position A and the cells B, C, D follow one another on a row, a
column or a diagonal of the board, with B and D open and C not open, the move to D is
illegal and the move to B is legal. -/
theorem blocked_line_rule (s : State) (player : Char) (dr dc : Int) (hd : is_direction dr dc)
    (hA : in_board (position_of s player))
    (hB : in_board ⟨(position_of s player).row + dr, (position_of s player).col + dc⟩)
    (hC : in_board ⟨(position_of s player).row + 2 * dr, (position_of s player).col + 2 * dc⟩)
    (hD : in_board ⟨(position_of s player).row + 3 * dr, (position_of s player).col + 3 * dc⟩)
    (hBo : s.board ((position_of s player).row + dr) ((position_of s player).col + dc) = ' ')
    (hCb : s.board ((position_of s player).row + 2 * dr)
      ((position_of s player).col + 2 * dc) ≠ ' ')
    (hDo : s.board ((position_of s player).row + 3 * dr)
      ((position_of s player).col + 3 * dc) = ' ') :
    is_legal s player
      ⟨(position_of s player).row + 3 * dr, (position_of s player).col + 3 * dc⟩ = false ∧
    is_legal s player
      ⟨(position_of s player).row + dr, (position_of s player).col + dc⟩ = true := by
  have _ := hA
  have _ := hC
  have _ := hD
  have _ := hDo
  constructor
  · cases h : is_legal s player
      ⟨(position_of s player).row + 3 * dr, (position_of s player).col + 3 * dc⟩
    · rfl
    · exfalso
      obtain ⟨-, -, -, h4, -⟩ := (is_legal_iff_open s player _).1 h
      obtain ⟨e1, e2, e3⟩ := dist_three (position_of s player) dr dc hd
      have := h4 2 (by norm_num) (by rw [e1]; norm_num)
      simp only [e2, e3] at this
      exact hCb this
  · exact one_step_legal s player _ hB (dist_one _ dr dc hd) hBo

/-- C14 on a concrete position: x at (0,0) with (0,1) open, (0,2) occupied by o and (0,3)
open. -/
theorem blocked_line_rule_witness :
    is_direction 0 1 ∧
    in_board (position_of block_state 'x') ∧
    in_board ⟨(position_of block_state 'x').row + 0, (position_of block_state 'x').col + 1⟩ ∧
    in_board ⟨(position_of block_state 'x').row + 2 * 0,
      (position_of block_state 'x').col + 2 * 1⟩ ∧
    in_board ⟨(position_of block_state 'x').row + 3 * 0,
      (position_of block_state 'x').col + 3 * 1⟩ ∧
    block_state.board ((position_of block_state 'x').row + 0)
      ((position_of block_state 'x').col + 1) = ' ' ∧
    block_state.board ((position_of block_state 'x').row + 2 * 0)
      ((position_of block_state 'x').col + 2 * 1) ≠ ' ' ∧
    block_state.board ((position_of block_state 'x').row + 3 * 0)
      ((position_of block_state 'x').col + 3 * 1) = ' ' ∧
    (is_legal block_state 'x'
      ⟨(position_of block_state 'x').row + 3 * 0,
        (position_of block_state 'x').col + 3 * 1⟩ = false ∧
    is_legal block_state 'x'
      ⟨(position_of block_state 'x').row + 0, (position_of block_state 'x').col + 1⟩ = true) :=
  ⟨by decide, by decide, by decide, by decide, by decide, by decide, by decide, by decide,
    blocked_line_rule block_state 'x' 0 1 (by decide) (by decide) (by decide) (by decide) (by decide)
      (by decide) (by decide) (by decide)⟩

/-! ## C15 -/

theorem is_legal_own_pos (s : State) (player : Char) :
    is_legal s player (position_of s player) = false := by
  cases h : is_legal s player (position_of s player)
  · rfl
  · exact absurd rfl (is_legal_ne_pos h)

/-- C15: for both players, the player's own recorded position is not a legal target, and
`make_move` to it fails and leaves the state as it was. -/
theorem no_pass_in_place (s : State) :
    is_legal s 'x' s.x_pos = false ∧ is_legal s 'o' s.o_pos = false ∧
    make_move s 'x' s.x_pos = (false, s) ∧ make_move s 'o' s.o_pos = (false, s) ∧
    ∀ player, is_legal s player (position_of s player) = false ∧
      (make_move s player (position_of s player)).1 = false :=
  ⟨is_legal_own_pos s 'x', is_legal_own_pos s 'o',
    make_move_of_illegal s 'x' s.x_pos (is_legal_own_pos s 'x'),
    make_move_of_illegal s 'o' s.o_pos (is_legal_own_pos s 'o'),
    fun player => ⟨is_legal_own_pos s player, by rw [make_move_fst, is_legal_own_pos]⟩⟩

/-! ## C16 -/

/-- C16: a target that is not in the same row, not in the same column and not on a
diagonal of the player's recorded position is not legal. -/
theorem not_aligned_illegal (s : State) (player : Char) (t : Pos)
    (hrow : t.row ≠ (position_of s player).row) (hcol : t.col ≠ (position_of s player).col)
    (hdiag : (t.row - (position_of s player).row).natAbs ≠
      (t.col - (position_of s player).col).natAbs) :
    is_legal s player t = false := by
  cases h : is_legal s player t
  · rfl
  · exfalso
    obtain ⟨-, -, h3, -⟩ := (is_legal_iff_open s player t).1 h
    rcases h3 with h3 | h3 | h3
    · exact hrow h3.symm
    · exact hcol h3.symm
    · exact hdiag h3

/-- C16 at the start state: the knight-like jump of `'x'` from (0,0) to (1,2). -/
theorem not_aligned_illegal_witness :
    (⟨1, 2⟩ : Pos).row ≠ (position_of start_state 'x').row ∧
    (⟨1, 2⟩ : Pos).col ≠ (position_of start_state 'x').col ∧
    ((⟨1, 2⟩ : Pos).row - (position_of start_state 'x').row).natAbs ≠
      ((⟨1, 2⟩ : Pos).col - (position_of start_state 'x').col).natAbs ∧
    is_legal start_state 'x' ⟨1, 2⟩ = false :=
  ⟨by decide, by decide, by decide,
    not_aligned_illegal start_state 'x' ⟨1, 2⟩ (by decide) (by decide) (by decide)⟩

/-! ## C18 -/

theorem moves_length_le_of_in_board (s : State) (player : Char)
    (h : in_board (position_of s player)) : (moves s player).length ≤ 15 := by
  rw [moves_eq_filter]
  have hlt : (cells.filter (fun m => is_legal s player m)).length < cells.length := by
    rw [List.length_filter_lt_length_iff_exists]
    exact ⟨position_of s player, (mem_cells _).2 h, by simp [is_legal_own_pos]⟩
  have : cells.length = 16 := rfl
  omega

theorem evaluate_bounds_of_in_board (s : State) (hr : roles_ok s)
    (hx : in_board s.x_pos) (ho : in_board s.o_pos) :
    -15 ≤ evaluate s ∧ evaluate s ≤ 15 := by
  have h1 : (moves s s.ai).length ≤ 15 := by
    apply moves_length_le_of_in_board
    unfold position_of
    split_ifs <;> assumption
  have h2 : (moves s s.human).length ≤ 15 := by
    apply moves_length_le_of_in_board
    unfold position_of
    split_ifs <;> assumption
  have _ := hr
  simp only [evaluate]
  constructor <;> omega

theorem make_move_in_board (s : State) (player : Char) (m : Pos)
    (hx : in_board s.x_pos) (ho : in_board s.o_pos) :
    in_board (make_move s player m).2.x_pos ∧ in_board (make_move s player m).2.o_pos := by
  cases hl : is_legal s player m
  · rw [make_move_of_illegal s player m hl]; exact ⟨hx, ho⟩
  · have hb := is_legal_in_board hl
    by_cases hp : player = 'x'
    · subst hp
      rw [make_move_of_legal_x s m hl]; exact ⟨hb, ho⟩
    · rw [make_move_of_legal_o s player m hp hl]; exact ⟨hx, hb⟩

/-- With both recorded positions on the board and `maximizing` in step with the turn, the
score of `minimax` lies between -15 and 15. -/
theorem minimax_bounds_in_board (s : State) (d : Nat) (mx : Bool) (mv : Pos)
    (hr : roles_ok s) (hx : in_board s.x_pos) (ho : in_board s.o_pos)
    (ht : s.turn = s.ai ∨ s.turn = s.human) (hmx : mx = true ↔ s.turn = s.ai) :
    -15 ≤ (minimax s d mx mv).1 ∧ (minimax s d mx mv).1 ≤ 15 := by
  induction d generalizing s mx mv with
  | zero => rw [minimax_zero]; exact evaluate_bounds_of_in_board s hr hx ho
  | succ d ih =>
    have hxo : s.turn = 'x' ∨ s.turn = 'o' := by
      rcases hr with ⟨h1, h2⟩ | ⟨h1, h2⟩ <;> rcases ht with h | h <;> rw [h] <;> simp [h1, h2]
    have hchild : ∀ player m, roles_ok (child s player m) ∧
        in_board (child s player m).x_pos ∧ in_board (child s player m).o_pos ∧
        ((child s player m).turn = (child s player m).ai ∨
          (child s player m).turn = (child s player m).human) ∧
        ((child s player m).turn = (child s player m).ai ↔ ¬ s.turn = s.ai) := by
      intro player m
      obtain ⟨c1, c2, c3⟩ := child_fields s player m
      obtain ⟨p1, p2⟩ := make_move_in_board s player m hx ho
      refine ⟨?_, p1, p2, ?_⟩
      · unfold roles_ok; rw [c1, c2]; exact hr
      · rw [c1, c2, c3]
        unfold roles_ok at hr
        rcases hr with ⟨h1, h2⟩ | ⟨h1, h2⟩ <;> rcases ht with h | h <;>
          simp [h1, h2, h] at *
    rw [minimax_succ]
    split_ifs with h1 h2
    · exact evaluate_bounds_of_in_board s hr hx ho
    · have hw : winner s = 'n' := not_not.1 h1
      have hne := winner_eq_n s hxo hw
      rw [hmx.1 h2] at hne
      obtain ⟨-, b2, b3⟩ := foldl_max_bound
        (max_step s (d + 1) (fun t mv => minimax t d false mv)) (-15) 15 (moves s s.ai)
        (-1000, mv) (by
          intro a m
          obtain ⟨c1, c2, c3, c4, c5⟩ := hchild s.ai m
          have := ih (child s s.ai m) false a.2 c1 c2 c3 c4 (by
            rw [c5]; simp [hmx.1 h2])
          refine ⟨(minimax (child s s.ai m) d false a.2).1, this.1, this.2, ?_⟩
          simp only [max_step, child]
          split_ifs <;> rfl)
      exact ⟨b3 hne, b2 (by norm_num)⟩
    · have hw : winner s = 'n' := not_not.1 h1
      have hne := winner_eq_n s hxo hw
      have hth : s.turn = s.human := by
        rcases ht with h | h
        · exact absurd (hmx.2 h) h2
        · exact h
      rw [hth] at hne
      obtain ⟨-, b2, b3⟩ := foldl_min_bound
        (min_step s (fun t mv => minimax t d true mv)) (-15) 15 (moves s s.human)
        (1000, mv) (by
          intro a m
          obtain ⟨c1, c2, c3, c4, c5⟩ := hchild s.human m
          have := ih (child s s.human m) true a.2 c1 c2 c3 c4 (by
            rw [c5]
            simp only [true_iff]
            intro h; exact h2 (hmx.2 h))
          refine ⟨(minimax (child s s.human m) d true a.2).1, this.1, this.2, ?_⟩
          simp only [min_step, child]
          split_ifs <;> rfl)
      exact ⟨b2 (by norm_num), b3 hne⟩

theorem state_inv_dead_state : state_inv dead_state := by
  decide

/-- C18, as stated, fails: the blocked position with turn `'z'` satisfies the invariant,
has `ai = 'x'` and `human = 'o'`, and `maximizing = false` agrees with `turn ≠ ai`, yet
`minimax` at depth 1 returns the sentinel 1000. -/
theorem minimax_sentinel_returned :
    state_inv odd_turn_state ∧ roles_ok odd_turn_state ∧
    ((false = true) ↔ odd_turn_state.turn = odd_turn_state.ai) ∧
    (minimax odd_turn_state 1 false ⟨0, 0⟩).1 = 1000 ∧
    ¬ (-15 ≤ (minimax odd_turn_state 1 false ⟨0, 0⟩).1 ∧
        (minimax odd_turn_state 1 false ⟨0, 0⟩).1 ≤ 15) := by
  have hm : ∀ player, moves odd_turn_state player = [] := moves_dead_state
  have hw : winner odd_turn_state = 'n' := by
    unfold winner
    rw [hm, hm]
    simp [odd_turn_state]
  have hv : (minimax odd_turn_state 1 false ⟨0, 0⟩).1 = 1000 := by
    rw [minimax_succ, if_neg (not_not.2 hw), if_neg (by decide), hm]
    rfl
  refine ⟨state_inv_dead_state, by decide, by decide, hv, ?_⟩
  rw [hv]
  norm_num

/-- C18, amended: for a state that satisfies the invariant, with `ai` and `human` the two
symbols, the turn `'x'` or `'o'`, and `maximizing` true exactly when the turn is the AI's,
`minimax` at every depth returns a score between -15 and 15, so never a sentinel. -/
theorem minimax_within_15 (s : State) (d : Nat) (mx : Bool) (mv : Pos)
    (hinv : state_inv s) (hr : roles_ok s) (hturn : s.turn = 'x' ∨ s.turn = 'o')
    (hmx : mx = true ↔ s.turn = s.ai) :
    -15 ≤ (minimax s d mx mv).1 ∧ (minimax s d mx mv).1 ≤ 15 ∧
    (minimax s d mx mv).1 ≠ -1000 ∧ (minimax s d mx mv).1 ≠ 1000 := by
  have ht : s.turn = s.ai ∨ s.turn = s.human := by
    rcases hr with ⟨h1, h2⟩ | ⟨h1, h2⟩ <;> rw [h1, h2] <;> tauto
  obtain ⟨⟨hx, ho⟩, -⟩ := hinv
  obtain ⟨b1, b2⟩ := minimax_bounds_in_board s d mx mv hr hx ho ht hmx
  exact ⟨b1, b2, by omega, by omega⟩

/-- C18 (amended) at the start state, at the root depth, with the AI `'x'` to move. -/
theorem minimax_within_15_witness :
    state_inv start_state ∧ roles_ok start_state ∧
    (start_state.turn = 'x' ∨ start_state.turn = 'o') ∧
    ((true = true) ↔ start_state.turn = start_state.ai) ∧
    (-15 ≤ (minimax start_state 8 true ⟨0, 0⟩).1 ∧
      (minimax start_state 8 true ⟨0, 0⟩).1 ≤ 15 ∧
      (minimax start_state 8 true ⟨0, 0⟩).1 ≠ -1000 ∧
      (minimax start_state 8 true ⟨0, 0⟩).1 ≠ 1000) :=
  ⟨state_inv_init_board _ _ _, by decide, Or.inl rfl, by decide,
    minimax_within_15 start_state 8 true ⟨0, 0⟩ (state_inv_init_board _ _ _) (by decide)
      (Or.inl rfl) (by decide)⟩

/-! ## C20 -/

/-- C20: with `ai` and `human` the two symbols, `evaluate` is at most 0 when the winner is
the human and at least 0 when the winner is the AI; the score 0 does occur for a lost and
for a won position (when neither player can move). -/
theorem terminal_score_sign (s : State) (hr : roles_ok s) :
    (winner s = s.human → evaluate s ≤ 0) ∧
    (winner s = s.ai → 0 ≤ evaluate s) ∧
    (∃ s1, roles_ok s1 ∧ state_inv s1 ∧ winner s1 = s1.human ∧ evaluate s1 = 0) ∧
    (∃ s2, roles_ok s2 ∧ state_inv s2 ∧ winner s2 = s2.ai ∧ evaluate s2 = 0) := by
  have hev : ∀ s1 : State, (∀ player, moves s1 player = []) → evaluate s1 = 0 := by
    intro s1 h
    simp only [evaluate, h, List.length_nil]
    rfl
  refine ⟨?_, ?_, ⟨dead_state, by decide, state_inv_dead_state, ?_, ?_⟩,
    ⟨swap_roles dead_state, by decide, state_inv_dead_state, ?_, ?_⟩⟩
  · intro hw
    simp only [winner] at hw
    simp only [evaluate]
    rcases hr with ⟨h1, h2⟩ | ⟨h1, h2⟩ <;> rw [h1, h2] <;> rw [h2] at hw <;>
      split_ifs at hw with c1 c2 <;>
      first
      | exact absurd hw (by decide)
      | (obtain ⟨hz, -⟩ := c1; omega)
      | (obtain ⟨hz, -⟩ := c2; omega)
  · intro hw
    simp only [winner] at hw
    simp only [evaluate]
    rcases hr with ⟨h1, h2⟩ | ⟨h1, h2⟩ <;> rw [h1, h2] <;> rw [h1] at hw <;>
      split_ifs at hw with c1 c2 <;>
      first
      | exact absurd hw (by decide)
      | (obtain ⟨hz, -⟩ := c1; omega)
      | (obtain ⟨hz, -⟩ := c2; omega)
  · exact winner_dead_state
  · exact hev dead_state moves_dead_state
  · exact winner_dead_state
  · exact hev (swap_roles dead_state) moves_dead_state

/-- C20 at the blocked position, which `'x'` (the AI) has lost. -/
theorem terminal_score_sign_witness :
    roles_ok dead_state ∧
    ((winner dead_state = dead_state.human → evaluate dead_state ≤ 0) ∧
    (winner dead_state = dead_state.ai → 0 ≤ evaluate dead_state) ∧
    (∃ s1, roles_ok s1 ∧ state_inv s1 ∧ winner s1 = s1.human ∧ evaluate s1 = 0) ∧
    (∃ s2, roles_ok s2 ∧ state_inv s2 ∧ winner s2 = s2.ai ∧ evaluate s2 = 0)) :=
  ⟨by decide, terminal_score_sign dead_state (by decide)⟩

/-! ## C19 -/

theorem countP_drop_le {α : Type} (l : List α) (P Q : α → Bool) (a : α) (ha : a ∈ l)
    (hmono : ∀ x ∈ l, Q x = true → P x = true) (hP : P a = true) (hQ : Q a = false) :
    l.countP Q + 1 ≤ l.countP P := by
  induction l with
  | nil => simp at ha
  | cons x xs ih =>
    rw [List.countP_cons, List.countP_cons]
    rcases List.mem_cons.1 ha with h | h
    · subst h
      have hle : xs.countP Q ≤ xs.countP P :=
        List.countP_mono_left (fun y hy => hmono y (List.mem_cons_of_mem _ hy))
      simp only [hP, hQ, if_true, Bool.false_eq_true, if_false]
      omega
    · have h1 := ih h (fun y hy => hmono y (List.mem_cons_of_mem _ hy))
      by_cases hx : Q x = true
      · have h2 := hmono x (List.mem_cons_self _ _) hx
        simp only [hx, h2, if_true]
        omega
      · have hx1 : Q x = false := by simpa using hx
        rw [hx1]
        simp only [Bool.false_eq_true, if_false]
        split_ifs <;> omega

theorem countP_drop_one {α : Type} (l : List α) (hnd : l.Nodup) (P Q : α → Bool) (a : α)
    (ha : a ∈ l) (hsame : ∀ x ∈ l, x ≠ a → Q x = P x) (hP : P a = true)
    (hQ : Q a = false) : l.countP Q + 1 = l.countP P := by
  induction l with
  | nil => simp at ha
  | cons x xs ih =>
    rw [List.countP_cons, List.countP_cons]
    obtain ⟨hx, hnd1⟩ := List.nodup_cons.1 hnd
    rcases List.mem_cons.1 ha with h | h
    · subst h
      have heq : xs.countP Q = xs.countP P := by
        apply List.countP_congr
        intro y hy
        rw [hsame y (List.mem_cons_of_mem _ hy) (fun e => hx (e ▸ hy))]
      simp only [hP, hQ, if_true, Bool.false_eq_true, if_false, heq, add_zero]
    · have h1 := ih hnd1 h (fun y hy => hsame y (List.mem_cons_of_mem _ hy))
      have h2 : Q x = P x := hsame x (List.mem_cons_self _ _) (fun e => hx (e ▸ h))
      rw [h2]
      omega

theorem make_move_board_of_legal (s : State) (player : Char) (t : Pos)
    (h : is_legal s player t = true) :
    (make_move s player t).2.board =
      set_cell (set_cell s.board t.row t.col (if player = 'x' then 'x' else 'o'))
        (position_of s player).row (position_of s player).col '.' := by
  by_cases hp : player = 'x'
  · subst hp
    rw [make_move_of_legal_x s t h]
    rfl
  · rw [make_move_of_legal_o s player t hp h]
    simp only [position_of, hp, if_false]

theorem make_move_target_ne_open (s : State) (player : Char) (t : Pos)
    (h : is_legal s player t = true) : (make_move s player t).2.board t.row t.col ≠ ' ' := by
  rw [make_move_board_of_legal s player t h, set_cell_apply, set_cell_apply]
  by_cases h1 : t.row = (position_of s player).row ∧ t.col = (position_of s player).col
  · rw [if_pos h1]; decide
  · rw [if_neg h1, if_pos ⟨rfl, rfl⟩]
    split_ifs <;> decide

theorem open_count_make_move_le (s : State) (player : Char) (t : Pos)
    (hok : (make_move s player t).1 = true) :
    open_count (make_move s player t).2 + 1 ≤ open_count s := by
  rw [make_move_fst] at hok
  unfold open_count
  apply countP_drop_le cells _ _ t ((mem_cells t).2 (is_legal_in_board hok))
  · intro x _ hx
    simp only [decide_eq_true_eq] at hx ⊢
    by_contra hne
    exact make_move_board_ne_open s player t x.row x.col hne hx
  · simpa using is_legal_target_open hok
  · simpa using make_move_target_ne_open s player t hok

theorem open_count_make_move (s : State) (player : Char) (t : Pos) (hinv : state_inv s)
    (hp : player = 'x' ∨ player = 'o') (hok : (make_move s player t).1 = true) :
    open_count (make_move s player t).2 + 1 = open_count s := by
  rw [make_move_fst] at hok
  have hold : s.board (position_of s player).row (position_of s player).col ≠ ' ' := by
    obtain ⟨-, ⟨b1, b2⟩, -, -⟩ := hinv
    rcases hp with hp | hp <;> subst hp
    · rw [show position_of s 'x' = s.x_pos from rfl, b1]; decide
    · rw [show position_of s 'o' = s.o_pos from rfl, b2]; decide
  unfold open_count
  apply countP_drop_one cells cells_nodup _ _ t ((mem_cells t).2 (is_legal_in_board hok))
  · intro x _ hxt
    rw [make_move_board_of_legal s player t hok]
    simp only [set_cell_apply]
    have hxt1 : ¬ (x.row = t.row ∧ x.col = t.col) := fun e => hxt ((pos_eq_iff x t).2 e)
    by_cases hxo : x.row = (position_of s player).row ∧ x.col = (position_of s player).col
    · rw [if_pos hxo, hxo.1, hxo.2]
      simp [hold]
    · rw [if_neg hxo, if_neg hxt1]
  · simpa using is_legal_target_open hok
  · simpa using make_move_target_ne_open s player t hok

theorem open_count_init_board (s0 : State) (human_choice first : Char) :
    open_count (init_board s0 human_choice first) = 14 := by
  simp [open_count, cells, List.countP_cons, init_board_board]

theorem reach_in_open_count (s s1 : State) (n : Nat) (h : ReachIn s n s1) :
    n + open_count s1 ≤ open_count s := by
  induction h with
  | start => omega
  | move s1 n player t _ hok ih =>
    have := open_count_make_move_le s1 player t hok
    omega
  | flip s1 n _ ih => exact ih

theorem foldl_fst_congr_mem {α : Type} (f g : Int × Pos → α → Int × Pos) (l : List α)
    (acc acc1 : Int × Pos)
    (h : ∀ a a1, ∀ m ∈ l, a.1 = a1.1 → (f a m).1 = (g a1 m).1)
    (hacc : acc.1 = acc1.1) : (l.foldl f acc).1 = (l.foldl g acc1).1 := by
  induction l generalizing acc acc1 with
  | nil => exact hacc
  | cons a l ih =>
    rw [List.foldl_cons, List.foldl_cons]
    exact ih _ _ (fun b b1 m hm hb => h b b1 m (List.mem_cons_of_mem _ hm) hb)
      (h _ _ a (List.mem_cons_self _ _) hacc)

theorem open_count_child_lt (s : State) (player : Char) (m : Pos)
    (hm : m ∈ moves s player) : open_count (child s player m) + 1 ≤ open_count s := by
  have hl := (mem_moves s player m).1 hm
  have h1 : open_count (child s player m) = open_count (make_move s player m).2 := rfl
  rw [h1]
  exact open_count_make_move_le s player m (by rw [make_move_fst]; exact hl)

/-- Once `depth` exceeds the number of open cells, a larger `depth` does not change the
score: the search tree has run out of moves before the depth runs out. -/
theorem minimax_depth_stable (n : Nat) (s : State) (hn : open_count s ≤ n) (d : Nat)
    (hd : n + 1 ≤ d) (mx : Bool) (mv mv1 : Pos) :
    (minimax s d mx mv).1 = (minimax s (n + 1) mx mv1).1 := by
  induction n generalizing s d mx mv mv1 with
  | zero =>
    have hnil : ∀ player, moves s player = [] := by
      intro player
      rw [List.eq_nil_iff_forall_not_mem]
      intro m hm
      have hl := (mem_moves s player m).1 hm
      have hpos : 0 < open_count s :=
        List.countP_pos_iff.2 ⟨m, (mem_cells m).2 (is_legal_in_board hl),
          by simpa using is_legal_target_open hl⟩
      omega
    obtain ⟨d1, rfl⟩ : ∃ d1, d = d1 + 1 := ⟨d - 1, by omega⟩
    rw [minimax_succ, minimax_succ, hnil, hnil]
    split_ifs <;> rfl
  | succ n ih =>
    obtain ⟨d1, rfl⟩ : ∃ d1, d = d1 + 1 := ⟨d - 1, by omega⟩
    have hd1 : n + 1 ≤ d1 := by omega
    rw [minimax_succ, minimax_succ]
    split_ifs with h1 h2
    · rfl
    · refine foldl_fst_congr_mem _ _ _ (-1000, mv) (-1000, mv1) ?_ rfl
      intro a a1 m hm ha
      have hc := open_count_child_lt s s.ai m hm
      have e := ih (child s s.ai m) (by omega) d1 hd1 false a.2 a1.2
      simp only [max_step]
      change (minimax (flip_turn (make_move s s.ai m).2) d1 false a.2).1 =
        (minimax (flip_turn (make_move s s.ai m).2) (n + 1) false a1.2).1 at e
      rw [e, ha]
      split_ifs <;> rfl
    · refine foldl_fst_congr_mem _ _ _ (1000, mv) (1000, mv1) ?_ rfl
      intro a a1 m hm ha
      have hc := open_count_child_lt s s.human m hm
      have e := ih (child s s.human m) (by omega) d1 hd1 true a.2 a1.2
      simp only [min_step]
      change (minimax (flip_turn (make_move s s.human m).2) d1 true a.2).1 =
        (minimax (flip_turn (make_move s s.human m).2) (n + 1) true a1.2).1 at e
      rw [e, ha]
      split_ifs <;> rfl

/-- C19: on a state that satisfies the invariant, every successful `make_move` of `'x'` or
`'o'` lowers the number of open cells by exactly one; the state built by `init_board` has
14 open cells; every run of successful moves from it (turn flips in between or not) has at
most 14 moves; and from it the score of `minimax` is the same at every depth of 15 or
more, so the search tree ends whatever the depth. -/
theorem open_cells_decrease :
    (∀ (s : State) (player : Char) (t : Pos), state_inv s →
      (player = 'x' ∨ player = 'o') → (make_move s player t).1 = true →
      open_count (make_move s player t).2 + 1 = open_count s) ∧
    (∀ (s0 : State) (human_choice first : Char),
      open_count (init_board s0 human_choice first) = 14) ∧
    (∀ (s0 : State) (human_choice first : Char) (n : Nat) (s1 : State),
      ReachIn (init_board s0 human_choice first) n s1 → n ≤ 14 ∧ n + open_count s1 ≤ 14) ∧
    (∀ (s0 : State) (human_choice first : Char) (d : Nat) (mx : Bool) (mv : Pos), 15 ≤ d →
      (minimax (init_board s0 human_choice first) d mx mv).1 =
        (minimax (init_board s0 human_choice first) 15 mx mv).1) := by
  refine ⟨open_count_make_move, open_count_init_board, ?_, ?_⟩
  · intro s0 human_choice first n s1 h
    have h1 := reach_in_open_count _ _ _ h
    rw [open_count_init_board] at h1
    omega
  · intro s0 human_choice first d mx mv hd
    exact minimax_depth_stable 14 _ (le_of_eq (open_count_init_board _ _ _)) d hd mx mv mv

/-! ## C17 -/

theorem step_toward_natAbs (r t : Int) (k : Nat) (h : (r - t).natAbs = k + 1) :
    (step_toward r t - t).natAbs = k ∧ r ≠ t ∧
    min r t ≤ step_toward r t ∧ step_toward r t ≤ max r t ∧
    min (step_toward r t) t ≥ min r t ∧ max (step_toward r t) t ≤ max r t := by
  unfold step_toward
  split_ifs <;> omega

theorem vertical_reads_spec (board : Int → Int → Char) (move : Pos) (c : Int) (k : Nat)
    (r : Int) (hk : (r - move.row).natAbs = k) :
    (is_legal_vertical_reads board move r c).1 = is_legal_vertical board move r c ∧
    (∀ q ∈ (is_legal_vertical_reads board move r c).2,
      q.col = c ∧ min r move.row ≤ q.row ∧ q.row ≤ max r move.row) ∧
    (is_legal_vertical_reads board move r c).2.length ≤ k ∧
    ((is_legal_vertical_reads board move r c).1 = true → r ≠ move.row →
      (⟨move.row, c⟩ : Pos) ∈ (is_legal_vertical_reads board move r c).2) := by
  induction k generalizing r with
  | zero =>
    have hr : r = move.row := by omega
    rw [is_legal_vertical_reads, is_legal_vertical]
    simp [hr]
  | succ k ih =>
    obtain ⟨h1, h2, h3, h4, h5, h6⟩ := step_toward_natAbs r move.row k hk
    obtain ⟨i1, i2, i3, i4⟩ := ih (step_toward r move.row) h1
    rw [is_legal_vertical_reads, is_legal_vertical]
    simp only [h2, ne_eq, not_false_eq_true, if_true]
    by_cases hb : board (step_toward r move.row) c = ' '
    · simp only [hb, not_true_eq_false, if_false, i1, List.mem_cons, List.length_cons]
      refine ⟨trivial, ?_, by omega, ?_⟩
      · rintro q (hq | hq)
        · rw [hq]; exact ⟨rfl, h3, h4⟩
        · obtain ⟨a, b, c1⟩ := i2 q hq
          exact ⟨a, by omega, by omega⟩
      · intro ht _
        by_cases he : step_toward r move.row = move.row
        · left; rw [he]
        · right; exact i4 (by rw [i1]; exact ht) he
    · simp only [hb, not_false_eq_true, if_true, List.mem_singleton, List.length_singleton]
      refine ⟨trivial, ?_, by omega, ?_⟩
      · rintro q hq
        rw [hq]; exact ⟨rfl, h3, h4⟩
      · intro ht; exact absurd ht (by decide)

theorem horizontal_reads_spec (board : Int → Int → Char) (move : Pos) (r : Int) (k : Nat)
    (c : Int) (hk : (c - move.col).natAbs = k) :
    (is_legal_horizontal_reads board move r c).1 = is_legal_horizontal board move r c ∧
    (∀ q ∈ (is_legal_horizontal_reads board move r c).2,
      q.row = r ∧ min c move.col ≤ q.col ∧ q.col ≤ max c move.col) ∧
    (is_legal_horizontal_reads board move r c).2.length ≤ k ∧
    ((is_legal_horizontal_reads board move r c).1 = true → c ≠ move.col →
      (⟨r, move.col⟩ : Pos) ∈ (is_legal_horizontal_reads board move r c).2) := by
  induction k generalizing c with
  | zero =>
    have hc : c = move.col := by omega
    rw [is_legal_horizontal_reads, is_legal_horizontal]
    simp [hc]
  | succ k ih =>
    obtain ⟨h1, h2, h3, h4, h5, h6⟩ := step_toward_natAbs c move.col k hk
    obtain ⟨i1, i2, i3, i4⟩ := ih (step_toward c move.col) h1
    rw [is_legal_horizontal_reads, is_legal_horizontal]
    simp only [h2, ne_eq, not_false_eq_true, if_true]
    by_cases hb : board r (step_toward c move.col) = ' '
    · simp only [hb, not_true_eq_false, if_false, i1, List.mem_cons, List.length_cons]
      refine ⟨trivial, ?_, by omega, ?_⟩
      · rintro q (hq | hq)
        · rw [hq]; exact ⟨rfl, h3, h4⟩
        · obtain ⟨a, b, c1⟩ := i2 q hq
          exact ⟨a, by omega, by omega⟩
      · intro ht _
        by_cases he : step_toward c move.col = move.col
        · left; rw [he]
        · right; exact i4 (by rw [i1]; exact ht) he
    · simp only [hb, not_false_eq_true, if_true, List.mem_singleton, List.length_singleton]
      refine ⟨trivial, ?_, by omega, ?_⟩
      · rintro q hq
        rw [hq]; exact ⟨rfl, h3, h4⟩
      · intro ht; exact absurd ht (by decide)

theorem diagonal_reads_spec (board : Int → Int → Char) (move : Pos) (k : Nat)
    (r c : Int) (hk : (r - move.row).natAbs = k) (hk2 : (c - move.col).natAbs = k) :
    (is_legal_diagonal_reads board move r c).1 = is_legal_diagonal board move r c ∧
    (∀ q ∈ (is_legal_diagonal_reads board move r c).2,
      (min r move.row ≤ q.row ∧ q.row ≤ max r move.row) ∧
      (min c move.col ≤ q.col ∧ q.col ≤ max c move.col)) ∧
    (is_legal_diagonal_reads board move r c).2.length ≤ k ∧
    ((is_legal_diagonal_reads board move r c).1 = true → r ≠ move.row →
      (⟨move.row, move.col⟩ : Pos) ∈ (is_legal_diagonal_reads board move r c).2) := by
  induction k generalizing r c with
  | zero =>
    have hr : r = move.row := by omega
    rw [is_legal_diagonal_reads, is_legal_diagonal]
    simp [hr]
  | succ k ih =>
    obtain ⟨h1, h2, h3, h4, h5, h6⟩ := step_toward_natAbs r move.row k hk
    obtain ⟨g1, g2, g3, g4, g5, g6⟩ := step_toward_natAbs c move.col k hk2
    obtain ⟨i1, i2, i3, i4⟩ := ih (step_toward r move.row) (step_toward c move.col) h1 g1
    rw [is_legal_diagonal_reads, is_legal_diagonal]
    simp only [h2, g2, ne_eq, not_false_eq_true, and_self, if_true]
    by_cases hb : board (step_toward r move.row) (step_toward c move.col) = ' '
    · simp only [hb, not_true_eq_false, if_false, i1, List.mem_cons, List.length_cons]
      refine ⟨trivial, ?_, by omega, ?_⟩
      · rintro q (hq | hq)
        · rw [hq]; exact ⟨⟨h3, h4⟩, ⟨g3, g4⟩⟩
        · obtain ⟨⟨a1, a2⟩, ⟨b1, b2⟩⟩ := i2 q hq
          exact ⟨⟨by omega, by omega⟩, ⟨by omega, by omega⟩⟩
      · intro ht _
        by_cases he : step_toward r move.row = move.row
        · left
          have hc : step_toward c move.col = move.col := by
            rw [he] at h1; omega
          rw [he, hc]
        · right; exact i4 (by rw [i1]; exact ht) he
    · simp only [hb, not_false_eq_true, if_true, List.mem_singleton, List.length_singleton]
      refine ⟨trivial, ?_, by omega, ?_⟩
      · rintro q hq
        rw [hq]; exact ⟨⟨h3, h4⟩, ⟨g3, g4⟩⟩
      · intro ht; exact absurd ht (by decide)

/-- What `is_legal_reads` returns: the value of `is_legal`, and reads that stay in the
rectangle spanned by the player's position and the target. -/
theorem is_legal_reads_spec (s : State) (player : Char) (t : Pos) :
    (is_legal_reads s player t).1 = is_legal s player t ∧
    (∀ q ∈ (is_legal_reads s player t).2, in_board t ∧
      (min (position_of s player).row t.row ≤ q.row ∧
        q.row ≤ max (position_of s player).row t.row) ∧
      (min (position_of s player).col t.col ≤ q.col ∧
        q.col ≤ max (position_of s player).col t.col)) ∧
    (is_legal_reads s player t).2.length ≤ dist (position_of s player) t ∧
    ((is_legal_reads s player t).1 = true → t ∈ (is_legal_reads s player t).2) := by
  simp only [is_legal_reads, is_legal, position_of, dist]
  generalize (if player = 'x' then s.x_pos else s.o_pos) = p
  obtain ⟨pr, pc⟩ := p
  obtain ⟨tr, tc⟩ := t
  simp only [in_board]
  by_cases h0 : (tr < 0 ∨ tr > 3 ∨ tc < 0 ∨ tc > 3) ∨ pr = tr ∧ pc = tc
  · simp [h0]
  have hb : 0 ≤ tr ∧ tr ≤ 3 ∧ 0 ≤ tc ∧ tc ≤ 3 := by omega
  rw [if_neg h0, if_neg h0]
  by_cases h1 : ¬ pr = tr ∧ ¬ pc = tc
  · rw [if_pos h1, if_pos h1]
    by_cases h2 : ¬ (pr - tr).natAbs = (pc - tc).natAbs
    · simp [h2]
    · rw [if_neg h2, if_neg h2]
      obtain ⟨a1, a2, a3, a4⟩ := diagonal_reads_spec s.board ⟨tr, tc⟩ (pr - tr).natAbs pr pc
        rfl (not_not.1 h2).symm
      refine ⟨a1, fun q hq => ⟨hb, a2 q hq⟩, ?_, fun ht => a4 ht h1.1⟩
      have : (pr - tr).natAbs ≤ max (tr - pr).natAbs (tc - pc).natAbs := by omega
      exact le_trans a3 this
  · rw [if_neg h1, if_neg h1]
    by_cases h3 : ¬ pr = tr
    · rw [if_pos h3, if_pos h3]
      have hc : pc = tc := by
        by_contra hne; exact h1 ⟨h3, hne⟩
      obtain ⟨a1, a2, a3, a4⟩ := vertical_reads_spec s.board ⟨tr, tc⟩ pc (pr - tr).natAbs pr
        rfl
      refine ⟨a1, fun q hq => ⟨hb, ?_⟩, ?_, fun ht => ?_⟩
      · obtain ⟨b1, b2, b3⟩ := a2 q hq
        simp only at b2 b3
        exact ⟨⟨b2, b3⟩, by rw [b1]; omega⟩
      · have : (pr - tr).natAbs ≤ max (tr - pr).natAbs (tc - pc).natAbs := by omega
        exact le_trans a3 this
      · have := a4 ht h3
        rw [hc] at this ⊢
        exact this
    · rw [if_neg h3, if_neg h3]
      have hr : pr = tr := not_not.1 h3
      have hc : ¬ pc = tc := by
        intro hc; exact h0 (Or.inr ⟨hr, hc⟩)
      rw [if_pos hc, if_pos hc]
      obtain ⟨a1, a2, a3, a4⟩ := horizontal_reads_spec s.board ⟨tr, tc⟩ pr (pc - tc).natAbs pc
        rfl
      refine ⟨a1, fun q hq => ⟨hb, ?_⟩, ?_, fun ht => ?_⟩
      · obtain ⟨b1, b2, b3⟩ := a2 q hq
        simp only at b2 b3
        exact ⟨by rw [b1]; omega, ⟨b2, b3⟩⟩
      · have : (pc - tc).natAbs ≤ max (tr - pr).natAbs (tc - pc).natAbs := by omega
        exact le_trans a3 this
      · have := a4 ht hc
        rw [hr] at this ⊢
        exact this

theorem make_move_writes_fst (s : State) (player : Char) (t : Pos) :
    (make_move_writes s player t).1 = make_move s player t := by
  unfold make_move_writes make_move
  split_ifs <;> rfl

theorem make_move_writes_snd (s : State) (player : Char) (t : Pos) :
    (make_move_writes s player t).2 =
      if is_legal s player t = true then [t, position_of s player] else [] := by
  unfold make_move_writes position_of
  split_ifs <;> rfl

/-- C17: when the acting player's recorded position is on the board, then for a target
with any integer coordinates `is_legal` reads only cells of the board, makes at most 3
reads, and when it returns true it has read the target cell; `make_move` writes only cells
of the board. -/
theorem index_safety (s : State) (player : Char) (t : Pos)
    (hpos : in_board (position_of s player)) :
    (is_legal_reads s player t).1 = is_legal s player t ∧
    (∀ q ∈ (is_legal_reads s player t).2, in_board q) ∧
    (is_legal_reads s player t).2.length ≤ 3 ∧
    (is_legal s player t = true → t ∈ (is_legal_reads s player t).2) ∧
    (make_move_writes s player t).1 = make_move s player t ∧
    (∀ q ∈ (make_move_writes s player t).2, in_board q) := by
  obtain ⟨a1, a2, a3, a4⟩ := is_legal_reads_spec s player t
  have hin : ∀ q ∈ (is_legal_reads s player t).2, in_board q := by
    intro q hq
    obtain ⟨hb, hr, hc⟩ := a2 q hq
    unfold in_board at hpos hb ⊢
    omega
  refine ⟨a1, hin, ?_, fun h => a4 (by rw [a1]; exact h), make_move_writes_fst s player t, ?_⟩
  · by_cases hb : in_board t
    · have hd : dist (position_of s player) t ≤ 3 := by
        unfold in_board at hpos hb
        unfold dist
        omega
      omega
    · have hnil : (is_legal_reads s player t).2 = [] := by
        rw [List.eq_nil_iff_forall_not_mem]
        intro q hq
        exact hb (a2 q hq).1
      rw [hnil]
      simp
  · intro q hq
    rw [make_move_writes_snd] at hq
    split_ifs at hq with hl
    · rcases List.mem_cons.1 hq with h | h
      · rw [h]; exact is_legal_in_board hl
      · rw [List.mem_singleton.1 h]; exact hpos
    · simp at hq

/-- C17 at the start state: `'x'` at (0,0) asks for the target (3,3), the far end of the
diagonal, which `'o'` occupies. -/
theorem index_safety_witness :
    in_board (position_of start_state 'x') ∧
    ((is_legal_reads start_state 'x' ⟨3, 3⟩).1 = is_legal start_state 'x' ⟨3, 3⟩ ∧
    (∀ q ∈ (is_legal_reads start_state 'x' ⟨3, 3⟩).2, in_board q) ∧
    (is_legal_reads start_state 'x' ⟨3, 3⟩).2.length ≤ 3 ∧
    (is_legal start_state 'x' ⟨3, 3⟩ = true →
      (⟨3, 3⟩ : Pos) ∈ (is_legal_reads start_state 'x' ⟨3, 3⟩).2) ∧
    (make_move_writes start_state 'x' ⟨3, 3⟩).1 = make_move start_state 'x' ⟨3, 3⟩ ∧
    (∀ q ∈ (make_move_writes start_state 'x' ⟨3, 3⟩).2, in_board q)) :=
  ⟨by decide, index_safety start_state 'x' ⟨3, 3⟩ (by decide)⟩

end Isolation
